import Mathlib

/-!
Verification of the styx build system (Go) against its specification.

This file shallowly embeds the core data structures and algorithms of the
repository:
  * the dependency graph (`internal/dependency/graph.go`): `AddNode`,
    `AddDependency`, `hasCycle`, `TopologicalSort`, `GetBuildOrder`,
    `MarkEntryPoint`;
  * the build cache (`internal/builder/cache.go`): `GetEntry`, `PutEntry`,
    `CalculateCommandHash`, `NeedsRebuild`, `UpdateEntry`, `Load`;
  * the orchestrator pieces of `internal/builder/builder.go` that the claims
    mention: `needsRebuild` and the wait/accumulate loop of
    `scheduleCompilationTasks`.

Go maps are modelled as association lists (Go map iteration order is
arbitrary; every property proved here is independent of the order, and the
embedding fixes it to insertion order).  Go `time.Time` values are modelled
by integers (Unix seconds, the only view the code takes of them).  The
filesystem is an oracle giving each path a stat result and a content hash,
matching exactly the calls the code makes (`os.Stat`, reading file bytes).
-/

namespace Styx

/-- Node kinds, from the `NodeType` constants of the dependency package. -/
inductive NodeType where
  | source
  | header
  | object
  | library
  | executable
deriving DecidableEq

/-- A node of the build graph.  Go stores `Dependencies []*Node`; all such
pointers are values of the graph map and are compared and followed through
their `ID` field only, so the embedding keeps the list of dependency ids. -/
structure Node where
  id : String
  type : NodeType
  path : String
  hash : String
  timestamp : Int
  deps : List String
  commandHash : String
deriving DecidableEq

/-- The build graph: a map from id to node plus the marked entry points
(Go keeps `EntryPoints []*Node`; only the ids of those shared nodes are
ever read, so we keep the ids). -/
structure Graph where
  nodes : List (String × Node)
  entryPoints : List String
deriving DecidableEq

/-- `NewGraph` of the source: empty map, no entry points. -/
def NewGraph : Graph := ⟨[], []⟩

/-- Lookup in the node map (`g.Nodes[id]`). -/
def lookupNode (g : Graph) (i : String) : Option Node :=
  (g.nodes.find? (fun p => p.1 = i)).map (·.2)

/-- The keys of the node map. -/
def gids (g : Graph) : List String := g.nodes.map (·.1)

/-- Dependency ids of a node, empty when the id is absent. -/
def depsOf (g : Graph) (u : String) : List String :=
  match lookupNode g u with
  | some n => n.deps
  | none => []

/-- The dependency-edge relation of the graph: `u` depends on `v`. -/
def Edge (g : Graph) (u v : String) : Prop :=
  ∃ n, lookupNode g u = some n ∧ v ∈ n.deps

/-- Acyclicity of the dependency-edge relation: no node reaches itself by a
nonempty chain of edges. -/
def Acyclic (g : Graph) : Prop :=
  ∀ u, ¬ Relation.TransGen (Edge g) u u

/-- Well-formedness of the map representation, which every graph built
through the exported operations enjoys: keys are distinct, each node is
keyed by its own id, dependency ids and entry points refer to present
nodes. -/
structure WF (g : Graph) : Prop where
  nodup : (gids g).Nodup
  keyed : ∀ p ∈ g.nodes, p.2.id = p.1
  closed : ∀ p ∈ g.nodes, ∀ d ∈ p.2.deps, d ∈ gids g
  entries : ∀ e ∈ g.entryPoints, e ∈ gids g

/-- Count of graph ids not yet visited; the fuel bound of the traversals. -/
def unseen (g : Graph) (V : Finset String) : Nat :=
  ((gids g).toFinset \ V).card

/-- The dependency loop of `dfsHasCycle`, with the recursive descent
abstracted as `step` (so that the recursion is structural on the fuel):
unvisited dependencies are recursed into, a dependency on the active path
reports a cycle. -/
def cycleLoop (P : Finset String)
    (step : String → Finset String → Bool × Finset String) :
    List String → Finset String → Bool × Finset String
  | [], V => (false, V)
  | v :: rest, V =>
    if v ∉ V then
      match step v V with
      | (true, V2) => (true, V2)
      | (false, V2) => cycleLoop P step rest V2
    else if v ∈ P then (true, V)
    else cycleLoop P step rest V

/-- `dfsHasCycle` of the source: depth-first search with a visited set `V`
and an active-path set `P`; returns whether a cycle was found together with
the updated visited set (the Go code mutates shared maps; the active-path
map is restored on every `false` return, so it is passed by value).
Recursion is fueled purely for termination: `hasCycle` supplies fuel
exceeding the node count and the exhaustion branch is unreachable, which
the correctness lemmas make precise.  An id absent from the map would be a
nil dereference in Go and cannot arise from the exported operations; that
branch returns without effect. -/
def dfsHasCycle (g : Graph) : Nat → String → Finset String → Finset String →
    Bool × Finset String
  | 0, _, V, _ => (false, V)
  | fuel + 1, u, V, P =>
    match lookupNode g u with
    | none => (false, V)
    | some n =>
      cycleLoop (insert u P) (fun v V2 => dfsHasCycle g fuel v V2 (insert u P))
        n.deps (insert u V)

/-- The outer loop of `hasCycle`, over all node ids. -/
def hcLoop (g : Graph) (fuel : Nat) : List String → Finset String → Bool
  | [], _ => false
  | u :: rest, V =>
    if u ∉ V then
      match dfsHasCycle g fuel u V ∅ with
      | (true, _) => true
      | (false, V2) => hcLoop g fuel rest V2
    else hcLoop g fuel rest V

/-- `hasCycle` of the source: runs the detection from every not yet visited
node. -/
def hasCycle (g : Graph) : Bool :=
  hcLoop g ((gids g).length + 1) (gids g) ∅

/-- The dependency loop of `dfs`, with the recursive descent abstracted as
`step`: recurse into not yet visited dependencies. -/
def topoLoop
    (step : String → Finset String → List Node → Finset String × List Node) :
    List String → Finset String → List Node → Finset String × List Node
  | [], V, r => (V, r)
  | v :: rest, V, r =>
    if v ∉ V then
      match step v V r with
      | (V2, r2) => topoLoop step rest V2 r2
    else topoLoop step rest V r

/-- `dfs` of the source (the topological-sort helper): post-order
depth-first traversal appending each node to the shared result slice after
its dependencies.  Fueled like `dfsHasCycle`. -/
def dfsTopo (g : Graph) : Nat → String → Finset String → List Node →
    Finset String × List Node
  | 0, _, V, r => (V, r)
  | fuel + 1, u, V, r =>
    match lookupNode g u with
    | none => (V, r)
    | some n =>
      match topoLoop (fun v V2 r2 => dfsTopo g fuel v V2 r2) n.deps
          (insert u V) r with
      | (V2, r2) => (V2, r2 ++ [n])

/-- A root loop of `TopologicalSort`: runs `dfs` from each not yet visited
id of the given list (used once for the entry points, then for all map
keys). -/
def topoRoots (g : Graph) (fuel : Nat) :
    List String → Finset String → List Node → Finset String × List Node
  | [], V, r => (V, r)
  | u :: rest, V, r =>
    if u ∉ V then
      match dfsTopo g fuel u V r with
      | (V2, r2) => topoRoots g fuel rest V2 r2
    else topoRoots g fuel rest V r

/-- `TopologicalSort` of the source: fails when a cycle is present,
otherwise traverses from the entry points, then from every remaining node,
and reverses the accumulated post-order sequence. -/
def TopologicalSort (g : Graph) : Except String (List Node) :=
  if hasCycle g then
    .error "graph has cycles, cannot perform topological sort"
  else
    let fuel := (gids g).length + 1
    match topoRoots g fuel g.entryPoints ∅ [] with
    | (V1, r1) =>
      match topoRoots g fuel (gids g) V1 r1 with
      | (_, r2) => .ok r2.reverse

/-- `GetBuildOrder` of the source: an alias for `TopologicalSort`. -/
def GetBuildOrder (g : Graph) : Except String (List Node) :=
  TopologicalSort g

/-- `AddNode` of the source: fails with a duplicate condition when the id
is present, otherwise inserts the node keyed by its id.  The pair returned
is the post-call graph together with the error of the Go call. -/
def AddNode (g : Graph) (n : Node) : Graph × Option String :=
  if (lookupNode g n.id).isSome then
    (g, some ("node already exists: " ++ n.id))
  else
    ({ g with nodes := g.nodes ++ [(n.id, n)] }, none)

/-- Replace the dependency list of the node keyed `i` (Go mutates the node
in place through the shared pointer). -/
def setDeps (g : Graph) (i : String) (ds : List String) : Graph :=
  { g with nodes := g.nodes.map (fun p =>
      if p.1 = i then (p.1, { p.2 with deps := ds }) else p) }

/-- `AddDependency` of the source: fails when an endpoint is absent, is a
no-op on a duplicate edge, otherwise tentatively appends the edge,
re-checks global acyclicity, and on cycle detection rolls the edge back
(truncating the appended slice) and fails. -/
def AddDependency (g : Graph) (fromID toID : String) :
    Graph × Option String :=
  match lookupNode g fromID, lookupNode g toID with
  | none, _ => (g, some ("source node not found: " ++ fromID))
  | some _, none => (g, some ("target node not found: " ++ toID))
  | some fromNode, some _ =>
    if toID ∈ fromNode.deps then (g, none)
    else if hasCycle (setDeps g fromID (fromNode.deps ++ [toID])) then
      (setDeps (setDeps g fromID (fromNode.deps ++ [toID])) fromID
         (fromNode.deps ++ [toID]).dropLast,
       some ("adding dependency from " ++ fromID ++ " to " ++ toID ++
             " would create a cycle"))
    else (setDeps g fromID (fromNode.deps ++ [toID]), none)

/-- `MarkEntryPoint` of the source: fails when the id is absent, is a
no-op when already marked, otherwise appends the node to the entry
points. -/
def MarkEntryPoint (g : Graph) (i : String) : Graph × Option String :=
  match lookupNode g i with
  | none => (g, some ("node not found: " ++ i))
  | some _ =>
    if i ∈ g.entryPoints then (g, none)
    else ({ g with entryPoints := g.entryPoints ++ [i] }, none)

/-- Graph states reachable through the exported operations, starting from
`NewGraph`, where every inserted node carries an empty dependency list (as
every call site in the repository does; the unrestricted operation is the
subject of the C1 counterexample). -/
inductive Reachable : Graph → Prop where
  | new : Reachable NewGraph
  | addNode {g} (n : Node) : Reachable g → n.deps = [] →
      Reachable (AddNode g n).1
  | addDep {g} (f t : String) : Reachable g →
      Reachable (AddDependency g f t).1
  | mark {g} (i : String) : Reachable g →
      Reachable (MarkEntryPoint g i).1

/-- A "finished" stack of node ids, most recently finished first: each
node's dependencies all appear strictly later in the list.  This is the
invariant the depth-first traversals establish, and it forces acyclicity. -/
def Finished (g : Graph) : List String → Prop
  | [] => True
  | u :: rest => (∀ v ∈ depsOf g u, v ∈ rest) ∧ Finished g rest

/-- The ids of a node list (the view under which the traversal results are
compared). -/
def rids (r : List Node) : List String := r.map Node.id

/-! ## The build cache (`internal/builder/cache.go`) -/

/-- `CacheEntry` of the source.  `time.Duration` is an integer tick count in
Go and is modelled by `Int`. -/
structure CacheEntry where
  path : String
  hash : String
  timestamp : Int
  dependencies : List String
  commandHash : String
  objectFile : String
  compilationTime : Int
deriving DecidableEq

/-- `BuildCache` of the source; the entries map is an association list,
`lastBuildTime` an integer instant. -/
structure BuildCache where
  version : String
  entries : List (String × CacheEntry)
  lastBuildTime : Int
deriving DecidableEq

/-- `Cache` of the source; `buildCache` is a nullable pointer in Go. -/
structure Cache where
  path : String
  buildCache : Option BuildCache
  hashAlgorithm : String
deriving DecidableEq

/-- `NewCache` of the source. -/
def NewCache (cachePath : String) : Cache :=
  ⟨cachePath, none, "sha256"⟩

/-- Go map assignment `m[k] = v`: replace the value when the key is
present, otherwise add the pair. -/
def mapInsert (m : List (String × CacheEntry)) (k : String) (v : CacheEntry) :
    List (String × CacheEntry) :=
  match m with
  | [] => [(k, v)]
  | (k1, v1) :: rest =>
    if k1 = k then (k, v) :: rest else (k1, v1) :: mapInsert rest k v

/-- The result of `os.Stat` on a path: success carries the modification
time (Unix seconds, the only field the code reads); a failure either
satisfies `os.IsNotExist` or is some other error. -/
inductive StatResult where
  | ok (modTime : Int)
  | notExist
  | err
deriving DecidableEq

/-- The filesystem oracle: what `os.Stat` returns per path, and what
hashing a file's bytes yields (`CalculateFileHash` opens and SHA-256-hashes
the file; `none` models its error results — open or copy failure). -/
structure FS where
  stat : String → StatResult
  fileHash : String → Option String

/-- `GetEntry` of the source: `nil` build cache or absent key give no
entry. -/
def GetEntry (c : Cache) (path : String) : Option CacheEntry :=
  match c.buildCache with
  | none => none
  | some bc => (bc.entries.find? (fun p => p.1 = path)).map (·.2)

/-- `PutEntry` of the source: materialises an empty build cache (stamped
with the current time) when the pointer is nil, then assigns the entry
under its path. -/
def PutEntry (now : Int) (c : Cache) (e : CacheEntry) : Cache :=
  match c.buildCache with
  | none =>
    { c with buildCache := some ⟨"1.0", [(e.path, e)], now⟩ }
  | some bc =>
    { c with buildCache := some { bc with entries := mapInsert bc.entries e.path e } }

/-- Modelled from the spec: SHA-256 (`crypto/sha256` + hex encoding), a
cryptographic-strength content hash whose collision probability the spec
calls negligible, is modelled as an injective fingerprint of the hashed
byte stream — the identity on strings.  Only injectivity is ever used. -/
def sha256hex (s : String) : String := s

/-- `CalculateCommandHash` of the source: one SHA-256 sum over the command
name followed by every argument, written byte after byte with no separator
(`hasher.Write(command)`, then `hasher.Write(arg)` for each argument). -/
def CalculateCommandHash (command : String) (args : List String) : String :=
  sha256hex (command ++ String.join args)

/-- The dependency loop of `NeedsRebuild`, with the recursive call
abstracted as `step` (the source recurses with an empty dependency list and
an empty command hash).  The cache value is threaded through the recursive
calls exactly as the Go pointer receiver is, so that the frame property of
the method is a theorem rather than a modelling assumption.  A dependency
whose stat fails (any error) forces a rebuild; so does a recursive rebuild
or error; so does a dependency newer than the entry's stored timestamp. -/
def rebuildDepsLoop (fs : FS) (entryTimestamp : Int)
    (step : Cache → String → (Bool × Option String) × Cache) :
    List String → Cache → (Bool × Option String) × Cache
  | [], c => ((false, none), c)
  | d :: rest, c =>
    match fs.stat d with
    | .ok depTime =>
      match step c d with
      | ((rebuild, e), c2) =>
        if e.isSome || rebuild then ((true, e), c2)
        else if entryTimestamp < depTime then ((true, none), c2)
        else rebuildDepsLoop fs entryTimestamp step rest c2
    | _ => ((true, none), c)

/-- `NeedsRebuild` of the source: no entry, missing file, changed
modification time, changed content hash, changed command hash, or a stale
dependency (checked recursively, with the dependency's own entry looked up
under an empty dependency list and empty command hash) force a rebuild;
stat and hash errors yield `true` together with an error value.  The
second component is the cache state after the call.  The recursion is
structural: every recursive call passes an empty dependency list, so the
fuel is the nesting depth plus 1. -/
def NeedsRebuild (fs : FS) :
    Nat → Cache → String → List String → String →
    (Bool × Option String) × Cache
  | 0, c, _, _, _ => ((false, none), c)
  | fuel + 1, c, path, dependencies, commandHash =>
    match GetEntry c path with
    | none => ((true, none), c)
    | some entry =>
      match fs.stat path with
      | .notExist => ((true, none), c)
      | .err => ((true, some "failed to stat file"), c)
      | .ok modTime =>
        if modTime ≠ entry.timestamp then ((true, none), c)
        else
          match fs.fileHash path with
          | none => ((true, some "failed to calculate hash"), c)
          | some currentHash =>
            if currentHash ≠ entry.hash then ((true, none), c)
            else if commandHash ≠ entry.commandHash then ((true, none), c)
            else
              rebuildDepsLoop fs entry.timestamp
                (fun c2 d => NeedsRebuild fs fuel c2 d [] "") dependencies c

/-- `NeedsRebuild` at its call shape: the recursion bottoms out after one
level because recursive calls carry no dependencies, so fuel 2 is exact. -/
def needsRebuild2 (c : Cache) (fs : FS) (path : String)
    (dependencies : List String) (commandHash : String) : Bool × Option String :=
  (NeedsRebuild fs 2 c path dependencies commandHash).1

/-- `UpdateEntry` of the source: re-stat and re-hash the freshly produced
file (any stat error, including absence, is returned as an error and
leaves the cache untouched), then store the entry. -/
def UpdateEntry (now : Int) (c : Cache) (fs : FS) (path : String)
    (dependencies : List String) (commandHash : String) (objectFile : String)
    (compilationTime : Int) : Except String Cache :=
  match fs.stat path with
  | .ok modTime =>
    match fs.fileHash path with
    | some h =>
      .ok (PutEntry now c
        ⟨path, h, modTime, dependencies, commandHash, objectFile,
         compilationTime⟩)
    | none => .error "failed to calculate hash"
  | _ => .error "failed to stat file"

/-- The on-disk state of the cache file as `Load` observes it: absent, or
present with content that either fails `json.Unmarshal` or parses to a
`BuildCache` value.  (Operating-system faults — an unreadable existing
file, a failed directory creation — are I/O-level errors outside this
content model.) -/
inductive DiskFile where
  | absent
  | malformed
  | wellFormed (bc : BuildCache)

/-- `Load` of the source: a missing file yields a fresh empty cache
(version 1.0, no entries, stamped now) and no error; unparseable content is
an error; parseable content is installed as is — the source performs no
version check whatsoever. -/
def Load (c : Cache) (d : DiskFile) (now : Int) : Except String Cache :=
  match d with
  | .absent => .ok { c with buildCache := some ⟨"1.0", [], now⟩ }
  | .malformed => .error "failed to parse cache file"
  | .wellFormed bc => .ok { c with buildCache := some bc }

/-! ## The orchestrator pieces (`internal/builder/builder.go`) -/

/-- The dependency loop at the end of the builder's `needsRebuild`: an
early `return` is `some` result, falling off the loop is `none`.  (The
message uses the dependency path where Go prints `filepath.Base(dep)`; only
its non-emptiness matters here.) -/
def depStatLoop (fs : FS) (objTime : Int) :
    List String → Option (Bool × String)
  | [] => none
  | d :: rest =>
    match fs.stat d with
    | .ok depTime =>
      if objTime < depTime then some (true, "dependency " ++ d ++ " modified")
      else depStatLoop fs objTime rest
    | _ => some (true, "cannot stat dependency")

/-- `needsRebuild` of the builder: consult the cache (only a nil-error
`true` short-circuits), then stat the object file — only an
`os.IsNotExist` error returns early; any other stat error leaves a nil
`FileInfo` and execution continues — index `dependencies[0]` (a panic,
`none`, on an empty list), stat that source file, returning
`(true, "cannot stat source file")` on any source-stat failure, and only
then compare modification times, which dereferences the object `FileInfo`
and panics (`none`) exactly when the earlier object stat had failed with a
non-`IsNotExist` error. -/
def builderNeedsRebuild (c : Cache) (fs : FS) (objectFile : String)
    (dependencies : List String) (commandHash : String) :
    Option (Bool × String) :=
  let nr := needsRebuild2 c fs objectFile dependencies commandHash
  if nr.2 = none ∧ nr.1 then some (true, "cache indicates rebuild needed")
  else
    match fs.stat objectFile with
    | .notExist => some (true, "object file doesn't exist")
    | .err =>
      match dependencies with
      | [] => none
      | sourceFile :: _ =>
        match fs.stat sourceFile with
        | .ok _ => none
        | _ => some (true, "cannot stat source file")
    | .ok objTime =>
      match dependencies with
      | [] => none
      | sourceFile :: rest =>
        match fs.stat sourceFile with
        | .ok srcTime =>
          if objTime < srcTime then some (true, "source file modified")
          else
            match depStatLoop fs objTime rest with
            | some res => some res
            | none => some (false, "up to date")
        | _ => some (true, "cannot stat source file")

/-- A compilation task, restricted to the fields the wait/accumulate loop
of `scheduleCompilationTasks` reads. -/
structure Task where
  sourceFile : String
  outputFile : String
deriving DecidableEq

/-- The outcome `WaitForTask` yields for a task (`nil` is modelled by
`Option` at the use site). -/
structure TaskResult where
  success : Bool
  errText : String
  duration : Int
deriving DecidableEq

/-- The wait/accumulate loop of `scheduleCompilationTasks`: wait for every
task in turn; a nil or failed result appends an error message and the loop
continues; a successful result updates the cache entry for the produced
object file (an update failure is only a warning).  Returns the final cache
and the accumulated error messages in order. -/
def scheduleWait (now : Int) (fs : FS) (deps : String → List String)
    (commandHash : String) :
    List (Task × Option TaskResult) → Cache → Cache × List String
  | [], c => (c, [])
  | (t, res) :: rest, c =>
    match res with
    | none =>
      match scheduleWait now fs deps commandHash rest c with
      | (c2, es) =>
        (c2, ("Compilation of " ++ t.sourceFile ++ " failed: unknown error")
              :: es)
    | some r =>
      if r.success then
        let c1 :=
          match UpdateEntry now c fs t.outputFile
              (t.sourceFile :: deps t.sourceFile) commandHash t.outputFile
              r.duration with
          | .ok c2 => c2
          | .error _ => c
        scheduleWait now fs deps commandHash rest c1
      else
        match scheduleWait now fs deps commandHash rest c with
        | (c2, es) =>
          (c2, ("Compilation of " ++ t.sourceFile ++ " failed: " ++ r.errText)
                :: es)

/-- The verdict at the end of `scheduleCompilationTasks`: the build fails
exactly when at least one compilation error was accumulated. -/
def scheduleVerdict (errors : List String) : Except String Unit :=
  if errors.length > 0 then
    .error ("compilation failed with " ++ toString errors.length ++ " errors")
  else .ok ()

/-! ## Concrete instances used by counterexamples and witnesses -/

/-- A node that lists itself as a dependency — a legal argument to
`AddNode`, which never inspects the dependency list. -/
def nodeSelf : Node := ⟨"a", NodeType.source, "a.c", "", 0, ["a"], ""⟩

/-- The graph obtained by inserting `nodeSelf` into an empty graph. -/
def gSelf : Graph := (AddNode NewGraph nodeSelf).1

/-- A two-node graph: object file `a` depends on source file `b`. -/
def gObjSrc : Graph :=
  ⟨[("a", ⟨"a", NodeType.object, "a.o", "", 0, ["b"], ""⟩),
    ("b", ⟨"b", NodeType.source, "b.c", "", 0, [], ""⟩)], []⟩

/-- The same two-node graph built through the exported operations. -/
def gBuilt : Graph :=
  (AddDependency
    (AddNode (AddNode NewGraph ⟨"a", NodeType.object, "a.o", "", 0, [], ""⟩).1
      ⟨"b", NodeType.source, "b.c", "", 0, [], ""⟩).1
    "a" "b").1

/-- A filesystem with artifact `p` (mtime 10, hash `HP`) and dependency
`d` (mtime 5, hash `HD`); everything else missing. -/
def fsC3 : FS :=
  ⟨fun s => if s = "p" then .ok 10 else if s = "d" then .ok 5 else .notExist,
   fun s => if s = "p" then some "HP" else if s = "d" then some "HD"
     else none⟩

/-- The cache produced by `UpdateEntry` for `p` with dependency list
`["d"]` and command hash `CH` on `fsC3`. -/
def cacheC3 : Cache :=
  ⟨"build.json", some ⟨"1.0", [("p", ⟨"p", "HP", 10, ["d"], "CH", "p.o", 7⟩)],
    100⟩, "sha256"⟩

/-- The cache produced by `UpdateEntry` for `p` with an empty dependency
list and command hash `CH` on `fsC3`. -/
def cacheC3e : Cache :=
  ⟨"build.json", some ⟨"1.0", [("p", ⟨"p", "HP", 10, [], "CH", "p.o", 7⟩)],
    100⟩, "sha256"⟩

/-- A cache whose entry for `p` stores the command hash of
`("gcc", ["-O2"])` (which is the byte stream `gcc-O2`). -/
def cacheC5 : Cache :=
  ⟨"build.json", some ⟨"1.0",
    [("p", ⟨"p", "HP", 10, [], "gcc-O2", "p.o", 7⟩)], 100⟩, "sha256"⟩

/-! ## Unfolding lemmas for the traversal loops -/

lemma cycleLoop_nil {P : Finset String}
    {step : String → Finset String → Bool × Finset String} {V : Finset String} :
    cycleLoop P step [] V = (false, V) := rfl

lemma cycleLoop_cons_path {P : Finset String}
    {step : String → Finset String → Bool × Finset String}
    {v : String} {rest : List String} {V : Finset String}
    (hv : v ∈ V) (hp : v ∈ P) :
    cycleLoop P step (v :: rest) V = (true, V) := by
  simp [cycleLoop, hv, hp]

lemma cycleLoop_cons_seen {P : Finset String}
    {step : String → Finset String → Bool × Finset String}
    {v : String} {rest : List String} {V : Finset String}
    (hv : v ∈ V) (hp : v ∉ P) :
    cycleLoop P step (v :: rest) V = cycleLoop P step rest V := by
  simp [cycleLoop, hv, hp]

lemma cycleLoop_cons_true {P : Finset String}
    {step : String → Finset String → Bool × Finset String}
    {v : String} {rest : List String} {V V2 : Finset String}
    (hv : v ∉ V) (hs : step v V = (true, V2)) :
    cycleLoop P step (v :: rest) V = (true, V2) := by
  simp [cycleLoop, hv, hs]

lemma cycleLoop_cons_false {P : Finset String}
    {step : String → Finset String → Bool × Finset String}
    {v : String} {rest : List String} {V V2 : Finset String}
    (hv : v ∉ V) (hs : step v V = (false, V2)) :
    cycleLoop P step (v :: rest) V = cycleLoop P step rest V2 := by
  simp [cycleLoop, hv, hs]

lemma dfsHasCycle_zero {g : Graph} {u : String} {V P : Finset String} :
    dfsHasCycle g 0 u V P = (false, V) := rfl

lemma dfsHasCycle_none {g : Graph} {fuel : Nat} {u : String}
    {V P : Finset String} (hl : lookupNode g u = none) :
    dfsHasCycle g (fuel + 1) u V P = (false, V) := by
  simp [dfsHasCycle, hl]

lemma dfsHasCycle_some {g : Graph} {fuel : Nat} {u : String}
    {V P : Finset String} {n : Node} (hl : lookupNode g u = some n) :
    dfsHasCycle g (fuel + 1) u V P =
      cycleLoop (insert u P) (fun v V2 => dfsHasCycle g fuel v V2 (insert u P))
        n.deps (insert u V) := by
  simp [dfsHasCycle, hl]

lemma hcLoop_nil {g : Graph} {fuel : Nat} {V : Finset String} :
    hcLoop g fuel [] V = false := rfl

lemma hcLoop_cons_seen {g : Graph} {fuel : Nat} {u : String}
    {rest : List String} {V : Finset String} (hu : u ∈ V) :
    hcLoop g fuel (u :: rest) V = hcLoop g fuel rest V := by
  simp [hcLoop, hu]

lemma hcLoop_cons_true {g : Graph} {fuel : Nat} {u : String}
    {rest : List String} {V V2 : Finset String} (hu : u ∉ V)
    (hs : dfsHasCycle g fuel u V ∅ = (true, V2)) :
    hcLoop g fuel (u :: rest) V = true := by
  simp [hcLoop, hu, hs]

lemma hcLoop_cons_false {g : Graph} {fuel : Nat} {u : String}
    {rest : List String} {V V2 : Finset String} (hu : u ∉ V)
    (hs : dfsHasCycle g fuel u V ∅ = (false, V2)) :
    hcLoop g fuel (u :: rest) V = hcLoop g fuel rest V2 := by
  simp [hcLoop, hu, hs]

lemma topoLoop_nil
    {step : String → Finset String → List Node → Finset String × List Node}
    {V : Finset String} {r : List Node} :
    topoLoop step [] V r = (V, r) := rfl

lemma topoLoop_cons_seen
    {step : String → Finset String → List Node → Finset String × List Node}
    {v : String} {rest : List String} {V : Finset String} {r : List Node}
    (hv : v ∈ V) :
    topoLoop step (v :: rest) V r = topoLoop step rest V r := by
  simp [topoLoop, hv]

lemma topoLoop_cons_new
    {step : String → Finset String → List Node → Finset String × List Node}
    {v : String} {rest : List String} {V V2 : Finset String} {r r2 : List Node}
    (hv : v ∉ V) (hs : step v V r = (V2, r2)) :
    topoLoop step (v :: rest) V r = topoLoop step rest V2 r2 := by
  simp [topoLoop, hv, hs]

lemma dfsTopo_zero {g : Graph} {u : String} {V : Finset String}
    {r : List Node} : dfsTopo g 0 u V r = (V, r) := rfl

lemma dfsTopo_none {g : Graph} {fuel : Nat} {u : String} {V : Finset String}
    {r : List Node} (hl : lookupNode g u = none) :
    dfsTopo g (fuel + 1) u V r = (V, r) := by
  simp [dfsTopo, hl]

lemma dfsTopo_some {g : Graph} {fuel : Nat} {u : String} {V V2 : Finset String}
    {r r2 : List Node} {n : Node} (hl : lookupNode g u = some n)
    (hs : topoLoop (fun v V3 r3 => dfsTopo g fuel v V3 r3) n.deps
      (insert u V) r = (V2, r2)) :
    dfsTopo g (fuel + 1) u V r = (V2, r2 ++ [n]) := by
  simp [dfsTopo, hl, hs]

lemma topoRoots_nil {g : Graph} {fuel : Nat} {V : Finset String}
    {r : List Node} : topoRoots g fuel [] V r = (V, r) := rfl

lemma topoRoots_cons_seen {g : Graph} {fuel : Nat} {u : String}
    {rest : List String} {V : Finset String} {r : List Node} (hu : u ∈ V) :
    topoRoots g fuel (u :: rest) V r = topoRoots g fuel rest V r := by
  simp [topoRoots, hu]

lemma topoRoots_cons_new {g : Graph} {fuel : Nat} {u : String}
    {rest : List String} {V V2 : Finset String} {r r2 : List Node}
    (hu : u ∉ V) (hs : dfsTopo g fuel u V r = (V2, r2)) :
    topoRoots g fuel (u :: rest) V r = topoRoots g fuel rest V2 r2 := by
  simp [topoRoots, hu, hs]

/-! ## Basic graph lemmas -/

lemma assoc_lookup_mem_keys (l : List (String × Node)) (u : String) :
    ((l.find? (fun p => p.1 = u)).map (·.2)).isSome = true ↔
      u ∈ l.map (·.1) := by
  induction l with
  | nil => simp
  | cons p rest ih =>
    by_cases h : p.1 = u
    · rw [List.find?_cons_of_pos _ (by simpa using h)]
      simp [h]
    · rw [List.find?_cons_of_neg _ (by simpa using h)]
      simp only [List.map_cons, List.mem_cons]
      rw [ih]
      constructor
      · exact Or.inr
      · rintro (rfl | hm)
        · exact absurd rfl h
        · exact hm

lemma mem_gids_iff_lookup {g : Graph} {u : String} :
    u ∈ gids g ↔ (lookupNode g u).isSome := by
  rw [gids, lookupNode, ← assoc_lookup_mem_keys g.nodes u]

lemma lookupNode_mem {g : Graph} {u : String} {n : Node}
    (h : lookupNode g u = some n) : (u, n) ∈ g.nodes := by
  simp only [lookupNode, Option.map_eq_some'] at h
  obtain ⟨p, hp, hpn⟩ := h
  have h1 := List.mem_of_find?_eq_some hp
  have h2 := List.find?_some hp
  simp only [decide_eq_true_eq] at h2
  obtain ⟨p1, p2⟩ := p
  cases h2
  cases hpn
  exact h1

lemma edge_mem_gids {g : Graph} {u v : String} (h : Edge g u v) :
    u ∈ gids g := by
  obtain ⟨n, hn, _⟩ := h
  rw [mem_gids_iff_lookup, hn]; rfl

lemma edge_target_mem {g : Graph} (hWF : WF g) {u v : String}
    (h : Edge g u v) : v ∈ gids g := by
  obtain ⟨n, hn, hv⟩ := h
  exact hWF.closed (u, n) (lookupNode_mem hn) v hv

lemma depsOf_eq_of_lookup {g : Graph} {u : String} {n : Node}
    (h : lookupNode g u = some n) : depsOf g u = n.deps := by
  simp [depsOf, h]

lemma edge_of_lookup {g : Graph} {u v : String} {n : Node}
    (h : lookupNode g u = some n) (hv : v ∈ n.deps) : Edge g u v :=
  ⟨n, h, hv⟩

lemma lookup_isSome_of_mem {g : Graph} {u : String} (h : u ∈ gids g) :
    ∃ n, lookupNode g u = some n := by
  rw [mem_gids_iff_lookup] at h
  exact Option.isSome_iff_exists.mp h

/-! ## Fuel and visited-set bookkeeping -/

lemma unseen_insert_lt {g : Graph} {V : Finset String} {u : String}
    (hu : u ∈ gids g) (hnv : u ∉ V) :
    unseen g (insert u V) < unseen g V := by
  apply Finset.card_lt_card
  constructor
  · exact Finset.sdiff_subset_sdiff (le_refl _) (Finset.subset_insert u V)
  · intro hsub
    have hmem : u ∈ (gids g).toFinset \ V := by
      simp [List.mem_toFinset.mpr hu, hnv]
    have := hsub hmem
    simp at this

lemma unseen_mono {g : Graph} {V V2 : Finset String} (h : V ⊆ V2) :
    unseen g V2 ≤ unseen g V :=
  Finset.card_le_card (Finset.sdiff_subset_sdiff (le_refl _) h)

lemma cycleLoop_subset {P : Finset String}
    {step : String → Finset String → Bool × Finset String}
    (hstep : ∀ v V, V ⊆ (step v V).2) :
    ∀ ds V, V ⊆ (cycleLoop P step ds V).2 := by
  intro ds
  induction ds with
  | nil => intro V; rw [cycleLoop_nil]
  | cons v rest ih =>
    intro V
    by_cases hv : v ∈ V
    · by_cases hp : v ∈ P
      · rw [cycleLoop_cons_path hv hp]
      · rw [cycleLoop_cons_seen hv hp]; exact ih V
    · rcases hs : step v V with ⟨b, V2⟩
      have hVV2 : V ⊆ V2 := by have := hstep v V; rwa [hs] at this
      cases b
      · rw [cycleLoop_cons_false hv hs]
        exact hVV2.trans (ih V2)
      · rw [cycleLoop_cons_true hv hs]
        exact hVV2

lemma dfsHasCycle_subset (g : Graph) :
    ∀ fuel u V P, V ⊆ (dfsHasCycle g fuel u V P).2 := by
  intro fuel
  induction fuel with
  | zero => intro u V P; rw [dfsHasCycle_zero]
  | succ fuel ih =>
    intro u V P
    cases hl : lookupNode g u with
    | none => rw [dfsHasCycle_none hl]
    | some n =>
      rw [dfsHasCycle_some hl]
      exact (Finset.subset_insert u V).trans
        (cycleLoop_subset (fun v V2 => ih v V2 (insert u P)) n.deps
          (insert u V))

/-! ## Soundness of cycle detection: a `true` answer exhibits a cycle -/

lemma cycleLoop_sound {g : Graph} (u : String) {P : Finset String}
    {step : String → Finset String → Bool × Finset String}
    (hstep : ∀ v ∈ depsOf g u, ∀ V2, (step v V2).1 = true →
      ∃ w, Relation.TransGen (Edge g) w w)
    (hP : ∀ p ∈ P, Relation.ReflTransGen (Edge g) p u) :
    ∀ ds V, (∀ v ∈ ds, v ∈ depsOf g u) →
      (cycleLoop P step ds V).1 = true →
      ∃ w, Relation.TransGen (Edge g) w w := by
  intro ds
  induction ds with
  | nil => intro V _ h; rw [cycleLoop_nil] at h; exact absurd h (by simp)
  | cons v rest ih =>
    intro V hds h
    have hv_dep : v ∈ depsOf g u := hds v (List.mem_cons_self v rest)
    have hrest : ∀ x ∈ rest, x ∈ depsOf g u :=
      fun x hx => hds x (List.mem_cons_of_mem v hx)
    have hedge : Edge g u v := by
      simp only [depsOf] at hv_dep
      cases hl : lookupNode g u with
      | none => rw [hl] at hv_dep; simp at hv_dep
      | some n => rw [hl] at hv_dep; exact ⟨n, hl, hv_dep⟩
    by_cases hv : v ∈ V
    · by_cases hp : v ∈ P
      · exact ⟨v, Relation.TransGen.tail' (hP v hp) hedge⟩
      · rw [cycleLoop_cons_seen hv hp] at h
        exact ih V hrest h
    · rcases hs : step v V with ⟨b, V2⟩
      cases b with
      | true => exact hstep v hv_dep V (by rw [hs])
      | false =>
        rw [cycleLoop_cons_false hv hs] at h
        exact ih V2 hrest h

lemma dfsHasCycle_sound (g : Graph) :
    ∀ fuel u V P,
      (∀ p ∈ P, Relation.ReflTransGen (Edge g) p u) →
      (dfsHasCycle g fuel u V P).1 = true →
      ∃ w, Relation.TransGen (Edge g) w w := by
  intro fuel
  induction fuel with
  | zero => intro u V P _ h; rw [dfsHasCycle_zero] at h; exact absurd h (by simp)
  | succ fuel ih =>
    intro u V P hP h
    cases hl : lookupNode g u with
    | none => rw [dfsHasCycle_none hl] at h; exact absurd h (by simp)
    | some n =>
      rw [dfsHasCycle_some hl] at h
      refine cycleLoop_sound u ?_ ?_ n.deps (insert u V) ?_ h
      · intro v hv V2 hstep
        refine ih v V2 (insert u P) ?_ hstep
        intro p hp
        have hedge : Edge g u v := by
          rw [depsOf_eq_of_lookup hl] at hv; exact ⟨n, hl, hv⟩
        rcases Finset.mem_insert.mp hp with rfl | hp2
        · exact Relation.ReflTransGen.single hedge
        · exact (hP p hp2).tail hedge
      · intro p hp
        rcases Finset.mem_insert.mp hp with rfl | hp2
        · exact Relation.ReflTransGen.refl
        · exact hP p hp2
      · rw [depsOf_eq_of_lookup hl]; exact fun v hv => hv

lemma hcLoop_sound (g : Graph) (fuel : Nat) :
    ∀ l V, hcLoop g fuel l V = true →
      ∃ w, Relation.TransGen (Edge g) w w := by
  intro l
  induction l with
  | nil => intro V h; rw [hcLoop_nil] at h; exact absurd h (by simp)
  | cons u rest ih =>
    intro V h
    by_cases hu : u ∈ V
    · rw [hcLoop_cons_seen hu] at h
      exact ih V h
    · rcases hs : dfsHasCycle g fuel u V ∅ with ⟨b, V2⟩
      cases b with
      | true =>
        exact dfsHasCycle_sound g fuel u V ∅ (by simp) (by rw [hs])
      | false =>
        rw [hcLoop_cons_false hu hs] at h
        exact ih V2 h

/-- If `hasCycle` reports a cycle, the edge relation really has one. -/
theorem hasCycle_sound {g : Graph} (h : hasCycle g = true) :
    ∃ w, Relation.TransGen (Edge g) w w :=
  hcLoop_sound g _ _ _ h

/-! ## The finished-stack invariant and its consequences -/

lemma finished_edge_lt {g : Graph} :
    ∀ {F : List String}, Finished g F → F.Nodup →
      ∀ {u v : String}, Edge g u v → u ∈ F →
        v ∈ F ∧ F.indexOf u < F.indexOf v := by
  intro F
  induction F with
  | nil => intro _ _ u v _ hu; exact absurd hu (List.not_mem_nil u)
  | cons x rest ih =>
    intro hF hN u v hE hu
    obtain ⟨hdeps, hrest⟩ := hF
    obtain ⟨hx, hNr⟩ := List.nodup_cons.mp hN
    have hv_dep : v ∈ depsOf g u := by
      obtain ⟨n, hn, hv⟩ := hE
      rw [depsOf_eq_of_lookup hn]; exact hv
    rcases List.mem_cons.mp hu with rfl | hur
    · have hvr : v ∈ rest := hdeps v hv_dep
      have hvx : v ≠ u := fun hvx => hx (hvx ▸ hvr)
      refine ⟨List.mem_cons_of_mem _ hvr, ?_⟩
      rw [List.indexOf_cons_self]
      rw [List.indexOf_cons_ne _ (Ne.symm hvx)]
      exact Nat.succ_pos _
    · obtain ⟨hvr, hlt⟩ := ih hrest hNr hE hur
      have hux : u ≠ x := fun hux => hx (hux ▸ hur)
      have hvx : v ≠ x := fun hvx => hx (hvx ▸ hvr)
      refine ⟨List.mem_cons_of_mem _ hvr, ?_⟩
      rw [List.indexOf_cons_ne _ (Ne.symm hux), List.indexOf_cons_ne _ (Ne.symm hvx)]
      exact Nat.succ_lt_succ hlt

lemma finished_transGen_lt {g : Graph} {F : List String}
    (hF : Finished g F) (hN : F.Nodup) {a b : String}
    (h : Relation.TransGen (Edge g) a b) (ha : a ∈ F) :
    b ∈ F ∧ F.indexOf a < F.indexOf b := by
  induction h with
  | single e => exact finished_edge_lt hF hN e ha
  | tail _ e ih =>
    obtain ⟨hb, hlt⟩ := ih
    obtain ⟨hc, hlt2⟩ := finished_edge_lt hF hN e hb
    exact ⟨hc, hlt.trans hlt2⟩

lemma transGen_first_edge {α : Type} {r : α → α → Prop} {a b : α}
    (h : Relation.TransGen r a b) : ∃ c, r a c := by
  induction h with
  | single e => exact ⟨_, e⟩
  | tail _ _ ih => exact ih

lemma finished_acyclic {g : Graph} {F : List String}
    (hF : Finished g F) (hN : F.Nodup)
    (hall : ∀ u ∈ gids g, u ∈ F) : Acyclic g := by
  intro u hcyc
  obtain ⟨c, hedge⟩ := transGen_first_edge hcyc
  have hu : u ∈ F := hall u (edge_mem_gids hedge)
  obtain ⟨_, hlt⟩ := finished_transGen_lt hF hN hcyc hu
  exact Nat.lt_irrefl _ hlt

/-! ## Completeness of cycle detection: a `false` answer forces acyclicity -/

lemma cycleLoop_complete (g : Graph) (P : Finset String) (fuel : Nat)
    (step : String → Finset String → Bool × Finset String)
    (hmono : ∀ v V2, V2 ⊆ (step v V2).2)
    (hstep : ∀ v V2 F2, v ∈ gids g → v ∉ V2 → unseen g V2 < fuel →
      V2 = P ∪ F2.toFinset → Disjoint P F2.toFinset → Finished g F2 →
      F2.Nodup → (∀ x ∈ F2, x ∈ gids g) → (step v V2).1 = false →
      ∃ E, (step v V2).2 = P ∪ ((E ++ F2).toFinset) ∧ v ∈ E ∧
        Disjoint P ((E ++ F2).toFinset) ∧ Finished g (E ++ F2) ∧
        (E ++ F2).Nodup ∧ ∀ x ∈ E, x ∈ gids g) :
    ∀ ds V F, (∀ v ∈ ds, v ∈ gids g) → unseen g V < fuel →
      V = P ∪ F.toFinset → Disjoint P F.toFinset → Finished g F →
      F.Nodup → (∀ x ∈ F, x ∈ gids g) →
      (cycleLoop P step ds V).1 = false →
      ∃ E, (cycleLoop P step ds V).2 = P ∪ ((E ++ F).toFinset) ∧
        (∀ v ∈ ds, v ∈ E ++ F) ∧ Disjoint P ((E ++ F).toFinset) ∧
        Finished g (E ++ F) ∧ (E ++ F).Nodup ∧ ∀ x ∈ E, x ∈ gids g := by
  intro ds
  induction ds with
  | nil =>
    intro V F _ _ hV hdisj hFin hN hgF _
    exact ⟨[], by simp [cycleLoop_nil, hV], by simp, by simpa, by simpa,
      by simpa, by simp⟩
  | cons v rest ih =>
    intro V F hds hfuel hV hdisj hFin hN hgF hres
    have hvg : v ∈ gids g := hds v (List.mem_cons_self v rest)
    have hrest : ∀ x ∈ rest, x ∈ gids g :=
      fun x hx => hds x (List.mem_cons_of_mem v hx)
    by_cases hv : v ∈ V
    · by_cases hp : v ∈ P
      · rw [cycleLoop_cons_path hv hp] at hres
        exact absurd hres (by simp)
      · rw [cycleLoop_cons_seen hv hp] at hres ⊢
        obtain ⟨E, h1, h2, h3, h4, h5, h6⟩ :=
          ih V F hrest hfuel hV hdisj hFin hN hgF hres
        refine ⟨E, h1, ?_, h3, h4, h5, h6⟩
        intro x hx
        rcases List.mem_cons.mp hx with rfl | hxr
        · have : x ∈ F.toFinset := by
            have hvPF : x ∈ P ∪ F.toFinset := hV ▸ hv
            rcases Finset.mem_union.mp hvPF with h | h
            · exact absurd h hp
            · exact h
          exact List.mem_append_right E (List.mem_toFinset.mp this)
        · exact h2 x hxr
    · rcases hs : step v V with ⟨b, V2⟩
      cases b with
      | true =>
        rw [cycleLoop_cons_true hv hs] at hres
        exact absurd hres (by simp)
      | false =>
        rw [cycleLoop_cons_false hv hs] at hres ⊢
        obtain ⟨E2, g1, g2, g3, g4, g5, g6⟩ :=
          hstep v V F hvg hv hfuel hV hdisj hFin hN hgF (by rw [hs])
        rw [hs] at g1
        have hVV2 : V ⊆ V2 := by have := hmono v V; rwa [hs] at this
        have hfuel2 : unseen g V2 < fuel :=
          lt_of_le_of_lt (unseen_mono hVV2) hfuel
        have hgEF : ∀ x ∈ E2 ++ F, x ∈ gids g := by
          intro x hx
          rcases List.mem_append.mp hx with h | h
          · exact g6 x h
          · exact hgF x h
        obtain ⟨E3, k1, k2, k3, k4, k5, k6⟩ :=
          ih V2 (E2 ++ F) hrest hfuel2 g1 g3 g4 g5 hgEF hres
        refine ⟨E3 ++ E2, ?_, ?_, ?_, ?_, ?_, ?_⟩
        · rw [k1, List.append_assoc]
        · intro x hx
          rcases List.mem_cons.mp hx with rfl | hxr
          · have : x ∈ E3 ++ (E2 ++ F) :=
              List.mem_append_right E3 (List.mem_append_left F g2)
            rwa [← List.append_assoc] at this
          · have := k2 x hxr
            rwa [← List.append_assoc] at this
        · rwa [List.append_assoc]
        · rwa [List.append_assoc]
        · rwa [List.append_assoc]
        · intro x hx
          rcases List.mem_append.mp hx with h | h
          · exact k6 x h
          · exact g6 x h

lemma dfsHasCycle_complete (g : Graph) (hWF : WF g) :
    ∀ fuel u V P F, u ∈ gids g → u ∉ V → unseen g V < fuel →
      V = P ∪ F.toFinset → Disjoint P F.toFinset → Finished g F → F.Nodup →
      (∀ x ∈ F, x ∈ gids g) → (dfsHasCycle g fuel u V P).1 = false →
      ∃ E, (dfsHasCycle g fuel u V P).2 = P ∪ ((E ++ F).toFinset) ∧ u ∈ E ∧
        Disjoint P ((E ++ F).toFinset) ∧ Finished g (E ++ F) ∧
        (E ++ F).Nodup ∧ ∀ x ∈ E, x ∈ gids g := by
  intro fuel
  induction fuel with
  | zero => intro u V P F _ _ hfuel _ _ _ _ _ _; exact absurd hfuel (by omega)
  | succ fuel ih =>
    intro u V P F hu hnv hfuel hV hdisj hFin hN hgF hres
    obtain ⟨n, hl⟩ := lookup_isSome_of_mem hu
    rw [dfsHasCycle_some hl] at hres ⊢
    have huF : u ∉ F.toFinset := fun hmem => hnv (hV ▸ Finset.mem_union_right P hmem)
    have huP : u ∉ P := fun hmem => hnv (hV ▸ Finset.mem_union_left _ hmem)
    obtain ⟨E3, k1, k2, k3, k4, k5, k6⟩ :=
      cycleLoop_complete g (insert u P) fuel
        (fun v V2 => dfsHasCycle g fuel v V2 (insert u P))
        (fun v V2 => dfsHasCycle_subset g fuel v V2 (insert u P))
        (fun v V2 F2 hv hnv2 hf2 hV2 hd2 hFin2 hN2 hg2 hr2 =>
          ih v V2 (insert u P) F2 hv hnv2 hf2 hV2 hd2 hFin2 hN2 hg2 hr2)
        n.deps (insert u V) F
        (fun v hv => hWF.closed (u, n) (lookupNode_mem hl) v hv)
        (by
          have h1 : unseen g (insert u V) < unseen g V :=
            unseen_insert_lt hu hnv
          omega)
        (by rw [hV, Finset.insert_union])
        (by
          rw [Finset.disjoint_insert_left]
          exact ⟨fun hmem => hnv (hV ▸ Finset.mem_union_right P
            (by exact hmem)), hdisj⟩)
        hFin hN hgF hres
    refine ⟨u :: E3, ?_, List.mem_cons_self u E3, ?_, ?_, ?_, ?_⟩
    · rw [k1]
      show insert u P ∪ _ = P ∪ ((u :: (E3 ++ F)).toFinset)
      rw [List.toFinset_cons, Finset.insert_union, Finset.union_insert]
    · show Disjoint P ((u :: (E3 ++ F)).toFinset)
      rw [List.toFinset_cons, Finset.disjoint_insert_right]
      exact ⟨huP, Finset.disjoint_insert_left.mp k3 |>.2⟩
    · show Finished g (u :: (E3 ++ F))
      refine ⟨?_, k4⟩
      rw [depsOf_eq_of_lookup hl]
      exact k2
    · show (u :: (E3 ++ F)).Nodup
      rw [List.nodup_cons]
      refine ⟨?_, k5⟩
      intro hmem
      have : u ∈ (E3 ++ F).toFinset := List.mem_toFinset.mpr hmem
      exact Finset.disjoint_insert_left.mp k3 |>.1 this
    · intro x hx
      rcases List.mem_cons.mp hx with rfl | hxr
      · exact hu
      · exact k6 x hxr

lemma hcLoop_complete (g : Graph) (hWF : WF g) (fuel : Nat) :
    ∀ l V F, (∀ u ∈ l, u ∈ gids g) → unseen g V < fuel →
      V = F.toFinset → Finished g F → F.Nodup →
      (∀ x ∈ F, x ∈ gids g) → hcLoop g fuel l V = false →
      ∃ F2, Finished g F2 ∧ F2.Nodup ∧ (∀ v ∈ l, v ∈ F2) ∧
        (∀ x ∈ F, x ∈ F2) := by
  intro l
  induction l with
  | nil =>
    intro V F _ _ _ hFin hN _ _
    exact ⟨F, hFin, hN, by simp, fun x hx => hx⟩
  | cons u rest ih =>
    intro V F hl hfuel hV hFin hN hgF hres
    have hug : u ∈ gids g := hl u (List.mem_cons_self u rest)
    have hrest : ∀ x ∈ rest, x ∈ gids g :=
      fun x hx => hl x (List.mem_cons_of_mem u hx)
    by_cases hu : u ∈ V
    · rw [hcLoop_cons_seen hu] at hres
      obtain ⟨F2, h1, h2, h3, h4⟩ := ih V F hrest hfuel hV hFin hN hgF hres
      refine ⟨F2, h1, h2, ?_, h4⟩
      intro x hx
      rcases List.mem_cons.mp hx with rfl | hxr
      · exact h4 x (List.mem_toFinset.mp (hV ▸ hu))
      · exact h3 x hxr
    · rcases hs : dfsHasCycle g fuel u V ∅ with ⟨b, V2⟩
      cases b with
      | true =>
        rw [hcLoop_cons_true hu hs] at hres
        exact absurd hres (by simp)
      | false =>
        rw [hcLoop_cons_false hu hs] at hres
        obtain ⟨E, k1, k2, k3, k4, k5, k6⟩ :=
          dfsHasCycle_complete g hWF fuel u V ∅ F hug hu hfuel
            (by rw [hV, Finset.empty_union]) (Finset.disjoint_empty_left _)
            hFin hN hgF (by rw [hs])
        have k1v : V2 = (E ++ F).toFinset := by
          have h2 := k1; rw [hs] at h2; simpa using h2
        have hVV2 : V ⊆ V2 := by
          have := dfsHasCycle_subset g fuel u V ∅; rwa [hs] at this
        have hfuel2 : unseen g V2 < fuel :=
          lt_of_le_of_lt (unseen_mono hVV2) hfuel
        have hgEF : ∀ x ∈ E ++ F, x ∈ gids g := by
          intro x hx
          rcases List.mem_append.mp hx with h | h
          · exact k6 x h
          · exact hgF x h
        obtain ⟨F2, m1, m2, m3, m4⟩ :=
          ih V2 (E ++ F) hrest hfuel2 k1v k4 k5 hgEF hres
        refine ⟨F2, m1, m2, ?_, ?_⟩
        · intro x hx
          rcases List.mem_cons.mp hx with rfl | hxr
          · exact m4 x (List.mem_append_left F k2)
          · exact m3 x hxr
        · intro x hx
          exact m4 x (List.mem_append_right E hx)

/-- If `hasCycle` reports no cycle on a well-formed graph, the edge
relation is acyclic. -/
theorem hasCycle_complete {g : Graph} (hWF : WF g)
    (h : hasCycle g = false) : Acyclic g := by
  unfold hasCycle at h
  obtain ⟨F2, h1, h2, h3, _⟩ :=
    hcLoop_complete g hWF ((gids g).length + 1) (gids g) ∅ []
      (fun u hu => hu)
      (by
        show unseen g ∅ < (gids g).length + 1
        have : unseen g ∅ ≤ (gids g).length := by
          unfold unseen
          rw [Finset.sdiff_empty]
          exact (gids g).toFinset_card_le
        omega)
      (by simp) trivial List.nodup_nil (by simp) h
  exact finished_acyclic h1 h2 h3

/-- On a well-formed graph, `hasCycle` answers exactly whether the edge
relation has a cycle. -/
theorem hasCycle_iff_acyclic {g : Graph} (hWF : WF g) :
    hasCycle g = false ↔ Acyclic g := by
  constructor
  · exact hasCycle_complete hWF
  · intro hA
    by_contra hne
    obtain ⟨w, hw⟩ := hasCycle_sound (by
      cases h : hasCycle g
      · exact absurd h hne
      · rfl)
    exact hA w hw

/-! ## The topological-sort traversal: invariants -/

lemma rids_append (r1 r2 : List Node) : rids (r1 ++ r2) = rids r1 ++ rids r2 := by
  simp [rids]

lemma topoLoop_subset
    {step : String → Finset String → List Node → Finset String × List Node}
    (hstep : ∀ v V r, V ⊆ (step v V r).1) :
    ∀ ds V r, V ⊆ (topoLoop step ds V r).1 := by
  intro ds
  induction ds with
  | nil => intro V r; rw [topoLoop_nil]
  | cons v rest ih =>
    intro V r
    by_cases hv : v ∈ V
    · rw [topoLoop_cons_seen hv]; exact ih V r
    · rcases hs : step v V r with ⟨V2, r2⟩
      rw [topoLoop_cons_new hv hs]
      have hVV2 : V ⊆ V2 := by have := hstep v V r; rwa [hs] at this
      exact hVV2.trans (ih V2 r2)

lemma dfsTopo_subset (g : Graph) :
    ∀ fuel u V r, V ⊆ (dfsTopo g fuel u V r).1 := by
  intro fuel
  induction fuel with
  | zero => intro u V r; rw [dfsTopo_zero]
  | succ fuel ih =>
    intro u V r
    cases hl : lookupNode g u with
    | none => rw [dfsTopo_none hl]
    | some n =>
      rcases hs : topoLoop (fun v V3 r3 => dfsTopo g fuel v V3 r3) n.deps
          (insert u V) r with ⟨V2, r2⟩
      rw [dfsTopo_some hl hs]
      have := topoLoop_subset (fun v V3 r3 => ih v V3 r3) n.deps
        (insert u V) r
      rw [hs] at this
      exact (Finset.subset_insert u V).trans this

lemma topoLoop_inv (g : Graph) (hWF : WF g) (hAcy : Acyclic g)
    (S : Finset String) (u : String) (fuel : Nat)
    (step : String → Finset String → List Node → Finset String × List Node)
    (hmono : ∀ v V2 r2, V2 ⊆ (step v V2 r2).1)
    (hS : ∀ s ∈ S, Relation.ReflTransGen (Edge g) s u)
    (hstep : ∀ v V2 r2,
      (∀ s ∈ S, Relation.ReflTransGen (Edge g) s v) →
      v ∈ gids g → v ∉ V2 → unseen g V2 < fuel →
      V2 = S ∪ (rids r2).toFinset → Disjoint S (rids r2).toFinset →
      Finished g (rids r2).reverse → (rids r2).Nodup →
      (∀ nd ∈ r2, lookupNode g nd.id = some nd) →
      ∃ E, (step v V2 r2).2 = r2 ++ E ∧ v ∈ rids E ∧
        (step v V2 r2).1 = S ∪ (rids (r2 ++ E)).toFinset ∧
        Disjoint S (rids (r2 ++ E)).toFinset ∧
        Finished g (rids (r2 ++ E)).reverse ∧ (rids (r2 ++ E)).Nodup ∧
        ∀ nd ∈ r2 ++ E, lookupNode g nd.id = some nd) :
    ∀ ds V r, (∀ v ∈ ds, Edge g u v) → unseen g V < fuel →
      V = S ∪ (rids r).toFinset → Disjoint S (rids r).toFinset →
      Finished g (rids r).reverse → (rids r).Nodup →
      (∀ nd ∈ r, lookupNode g nd.id = some nd) →
      ∃ E, (topoLoop step ds V r).2 = r ++ E ∧
        (∀ v ∈ ds, v ∈ rids (r ++ E)) ∧
        (topoLoop step ds V r).1 = S ∪ (rids (r ++ E)).toFinset ∧
        Disjoint S (rids (r ++ E)).toFinset ∧
        Finished g (rids (r ++ E)).reverse ∧ (rids (r ++ E)).Nodup ∧
        ∀ nd ∈ r ++ E, lookupNode g nd.id = some nd := by
  intro ds
  induction ds with
  | nil =>
    intro V r _ _ hV hdisj hFin hN hassoc
    exact ⟨[], by simp [topoLoop_nil], by simp, by simp [topoLoop_nil, hV],
      by simpa, by simpa, by simpa, by simpa⟩
  | cons v rest ih =>
    intro V r hds hfuel hV hdisj hFin hN hassoc
    have hv_edge : Edge g u v := hds v (List.mem_cons_self v rest)
    have hrest : ∀ x ∈ rest, Edge g u x :=
      fun x hx => hds x (List.mem_cons_of_mem v hx)
    by_cases hv : v ∈ V
    · -- already visited: either finished (fine) or an ancestor (a cycle,
      -- impossible in an acyclic graph)
      rw [topoLoop_cons_seen hv]
      obtain ⟨E, h1, h2, h3, h4, h5, h6, h7⟩ :=
        ih V r hrest hfuel hV hdisj hFin hN hassoc
      refine ⟨E, h1, ?_, h3, h4, h5, h6, h7⟩
      intro x hx
      rcases List.mem_cons.mp hx with rfl | hxr
      · have hxPF : x ∈ S ∪ (rids r).toFinset := hV ▸ hv
        rcases Finset.mem_union.mp hxPF with h | h
        · exact absurd (Relation.TransGen.tail' (hS x h) hv_edge) (hAcy x)
        · rw [rids_append]
          exact List.mem_append_left _ (List.mem_toFinset.mp h)
      · exact h2 x hxr
    · rcases hs : step v V r with ⟨V2, r2⟩
      have hvg : v ∈ gids g := edge_target_mem hWF hv_edge
      have hchain : ∀ s ∈ S, Relation.ReflTransGen (Edge g) s v :=
        fun s hs2 => (hS s hs2).tail hv_edge
      obtain ⟨E2, g1, g2, g3, g4, g5, g6, g7⟩ :=
        hstep v V r hchain hvg hv hfuel hV hdisj hFin hN hassoc
      rw [hs] at g1 g3
      have e2 : r2 = r ++ E2 := g1
      have eV : V2 = S ∪ (rids (r ++ E2)).toFinset := g3
      subst e2
      subst eV
      rw [topoLoop_cons_new hv hs]
      have hVV2 : V ⊆ S ∪ (rids (r ++ E2)).toFinset := by
        have h := hmono v V r; rw [hs] at h; exact h
      have hfuel2 : unseen g (S ∪ (rids (r ++ E2)).toFinset) < fuel :=
        lt_of_le_of_lt (unseen_mono hVV2) hfuel
      obtain ⟨E3, k1, k2, k3, k4, k5, k6, k7⟩ :=
        ih (S ∪ (rids (r ++ E2)).toFinset) (r ++ E2) hrest hfuel2 rfl
          g4 g5 g6 g7
      refine ⟨E2 ++ E3, ?_, ?_, ?_, ?_, ?_, ?_, ?_⟩
      · rw [k1, List.append_assoc]
      · intro x hx
        rcases List.mem_cons.mp hx with rfl | hxr
        · rw [← List.append_assoc, rids_append]
          refine List.mem_append_left _ ?_
          rw [rids_append]
          exact List.mem_append_right _ g2
        · have := k2 x hxr
          rwa [List.append_assoc] at this
      · rw [k3, List.append_assoc]
      · have := k4; rwa [List.append_assoc] at this
      · have := k5; rwa [List.append_assoc] at this
      · have := k6; rwa [List.append_assoc] at this
      · intro nd hnd
        apply k7
        rwa [List.append_assoc]

lemma dfsTopo_inv (g : Graph) (hWF : WF g) (hAcy : Acyclic g) :
    ∀ fuel u V r (S : Finset String), u ∈ gids g → u ∉ V →
      unseen g V < fuel →
      (∀ s ∈ S, Relation.ReflTransGen (Edge g) s u) →
      V = S ∪ (rids r).toFinset → Disjoint S (rids r).toFinset →
      Finished g (rids r).reverse → (rids r).Nodup →
      (∀ nd ∈ r, lookupNode g nd.id = some nd) →
      ∃ E, (dfsTopo g fuel u V r).2 = r ++ E ∧ u ∈ rids E ∧
        (dfsTopo g fuel u V r).1 = S ∪ (rids (r ++ E)).toFinset ∧
        Disjoint S (rids (r ++ E)).toFinset ∧
        Finished g (rids (r ++ E)).reverse ∧ (rids (r ++ E)).Nodup ∧
        ∀ nd ∈ r ++ E, lookupNode g nd.id = some nd := by
  intro fuel
  induction fuel with
  | zero => intro u V r S _ _ hfuel _ _ _ _ _ _; exact absurd hfuel (by omega)
  | succ fuel ih =>
    intro u V r S hu hnv hfuel hchain hV hdisj hFin hN hassoc
    obtain ⟨n, hl⟩ := lookup_isSome_of_mem hu
    have hnid : n.id = u := hWF.keyed (u, n) (lookupNode_mem hl)
    have huP : u ∉ S := fun hmem => hnv (hV ▸ Finset.mem_union_left _ hmem)
    have huR : u ∉ (rids r).toFinset :=
      fun hmem => hnv (hV ▸ Finset.mem_union_right _ hmem)
    rcases hloop : topoLoop (fun v V3 r3 => dfsTopo g fuel v V3 r3) n.deps
        (insert u V) r with ⟨V2, r2⟩
    obtain ⟨E3, k1, k2, k3, k4, k5, k6, k7⟩ :=
      topoLoop_inv g hWF hAcy (insert u S) u fuel
        (fun v V3 r3 => dfsTopo g fuel v V3 r3)
        (fun v V3 r3 => dfsTopo_subset g fuel v V3 r3)
        (by
          intro s hsm
          rcases Finset.mem_insert.mp hsm with rfl | hs2
          · exact Relation.ReflTransGen.refl
          · exact hchain s hs2)
        (fun v V3 r3 hchainv hv hnv3 hf3 hV3 hd3 hFin3 hN3 hassoc3 =>
          ih v V3 r3 (insert u S) hv hnv3 hf3 hchainv hV3 hd3 hFin3 hN3
            hassoc3)
        n.deps (insert u V) r
        (fun v hv => edge_of_lookup hl hv)
        (by
          have h1 : unseen g (insert u V) < unseen g V :=
            unseen_insert_lt hu hnv
          omega)
        (by rw [hV, Finset.insert_union])
        (by
          rw [Finset.disjoint_insert_left]
          exact ⟨fun hmem => huR hmem, hdisj⟩)
        hFin hN hassoc
    rw [hloop] at k1 k3
    have e2 : r2 = r ++ E3 := k1
    have eV : V2 = insert u S ∪ (rids (r ++ E3)).toFinset := k3
    subst e2
    subst eV
    rw [dfsTopo_some hl hloop]
    have huE3 : u ∉ (rids (r ++ E3)).toFinset :=
      (Finset.disjoint_insert_left.mp k4).1
    refine ⟨E3 ++ [n], ?_, ?_, ?_, ?_, ?_, ?_, ?_⟩
    · show (r ++ E3) ++ [n] = r ++ (E3 ++ [n])
      rw [List.append_assoc]
    · show u ∈ rids (E3 ++ [n])
      rw [rids_append]
      refine List.mem_append_right _ ?_
      simp [rids, hnid]
    · show insert u S ∪ (rids (r ++ E3)).toFinset =
        S ∪ (rids (r ++ (E3 ++ [n]))).toFinset
      rw [← List.append_assoc, rids_append (r ++ E3) [n]]
      show insert u S ∪ (rids (r ++ E3)).toFinset =
        S ∪ ((rids (r ++ E3)) ++ (rids [n])).toFinset
      rw [List.toFinset_append]
      show _ = S ∪ ((rids (r ++ E3)).toFinset ∪ ({n.id} : Finset String))
      rw [hnid]
      rw [Finset.union_comm (rids (r ++ E3)).toFinset {u}]
      rw [← Finset.insert_eq]
      rw [Finset.union_insert, Finset.insert_union]
    · show Disjoint S (rids (r ++ (E3 ++ [n]))).toFinset
      rw [← List.append_assoc, rids_append (r ++ E3) [n],
        List.toFinset_append]
      rw [Finset.disjoint_union_right]
      constructor
      · exact (Finset.disjoint_insert_left.mp k4).2
      · show Disjoint S (rids [n]).toFinset
        simp only [rids, List.map_cons, List.map_nil, List.toFinset_cons,
          List.toFinset_nil, insert_emptyc_eq, Finset.disjoint_singleton_right,
          hnid]
        exact huP
    · show Finished g (rids (r ++ (E3 ++ [n]))).reverse
      rw [← List.append_assoc, rids_append (r ++ E3) [n]]
      rw [List.reverse_append]
      show Finished g ((rids [n]).reverse ++ (rids (r ++ E3)).reverse)
      simp only [rids, List.map_cons, List.map_nil, List.reverse_cons,
        List.reverse_nil, List.nil_append, List.singleton_append, hnid]
      refine ⟨?_, k5⟩
      intro v hv
      rw [depsOf_eq_of_lookup hl] at hv
      rw [List.mem_reverse]
      exact k2 v hv
    · show (rids (r ++ (E3 ++ [n]))).Nodup
      rw [← List.append_assoc, rids_append (r ++ E3) [n]]
      rw [List.nodup_append]
      refine ⟨k6, ?_, ?_⟩
      · simp [rids]
      · intro x hx
        simp only [rids, List.map_cons, List.map_nil, List.mem_singleton,
          hnid]
        intro hxu
        subst hxu
        exact huE3 (List.mem_toFinset.mpr hx)
    · intro nd hnd
      rw [← List.append_assoc] at hnd
      rcases List.mem_append.mp hnd with h | h
      · exact k7 nd h
      · have : nd = n := by simpa using h
        subst this
        rw [hnid]
        exact hl

lemma topoRoots_inv (g : Graph) (hWF : WF g) (hAcy : Acyclic g)
    (fuel : Nat) :
    ∀ roots V r, (∀ x ∈ roots, x ∈ gids g) → unseen g V < fuel →
      V = (rids r).toFinset → Finished g (rids r).reverse →
      (rids r).Nodup → (∀ nd ∈ r, lookupNode g nd.id = some nd) →
      ∃ E, (topoRoots g fuel roots V r).2 = r ++ E ∧
        (topoRoots g fuel roots V r).1 = (rids (r ++ E)).toFinset ∧
        (∀ x ∈ roots, x ∈ rids (r ++ E)) ∧
        Finished g (rids (r ++ E)).reverse ∧ (rids (r ++ E)).Nodup ∧
        ∀ nd ∈ r ++ E, lookupNode g nd.id = some nd := by
  intro roots
  induction roots with
  | nil =>
    intro V r _ _ hV hFin hN hassoc
    exact ⟨[], by simp [topoRoots_nil], by simp [topoRoots_nil, hV],
      by simp, by simpa, by simpa, by simpa⟩
  | cons u rest ih =>
    intro V r hroots hfuel hV hFin hN hassoc
    have hug : u ∈ gids g := hroots u (List.mem_cons_self u rest)
    have hrest : ∀ x ∈ rest, x ∈ gids g :=
      fun x hx => hroots x (List.mem_cons_of_mem u hx)
    by_cases hu : u ∈ V
    · rw [topoRoots_cons_seen hu]
      obtain ⟨E, h1, h2, h3, h4, h5, h6⟩ :=
        ih V r hrest hfuel hV hFin hN hassoc
      refine ⟨E, h1, h2, ?_, h4, h5, h6⟩
      intro x hx
      rcases List.mem_cons.mp hx with rfl | hxr
      · rw [rids_append]
        exact List.mem_append_left _ (List.mem_toFinset.mp (hV ▸ hu))
      · exact h3 x hxr
    · rcases hs : dfsTopo g fuel u V r with ⟨V2, r2⟩
      obtain ⟨E2, g1, g2, g3, g4, g5, g6, g7⟩ :=
        dfsTopo_inv g hWF hAcy fuel u V r ∅ hug hu hfuel (by simp)
          (by rw [hV, Finset.empty_union]) (Finset.disjoint_empty_left _)
          hFin hN hassoc
      rw [hs] at g1 g3
      have e2 : r2 = r ++ E2 := g1
      have eV : V2 = (rids (r ++ E2)).toFinset := by
        have h : V2 = ∅ ∪ (rids (r ++ E2)).toFinset := g3
        rwa [Finset.empty_union] at h
      subst e2
      subst eV
      rw [topoRoots_cons_new hu hs]
      have hVV2 : V ⊆ (rids (r ++ E2)).toFinset := by
        have h := dfsTopo_subset g fuel u V r
        rw [hs] at h; exact h
      have hfuel2 : unseen g ((rids (r ++ E2)).toFinset) < fuel :=
        lt_of_le_of_lt (unseen_mono hVV2) hfuel
      obtain ⟨E3, k1, k2, k3, k4, k5, k6⟩ :=
        ih ((rids (r ++ E2)).toFinset) (r ++ E2) hrest hfuel2 rfl g5 g6 g7
      refine ⟨E2 ++ E3, ?_, ?_, ?_, ?_, ?_, ?_⟩
      · rw [k1, List.append_assoc]
      · rw [k2, List.append_assoc]
      · intro x hx
        rcases List.mem_cons.mp hx with rfl | hxr
        · rw [← List.append_assoc, rids_append]
          refine List.mem_append_left _ ?_
          rw [rids_append]
          exact List.mem_append_right _ g2
        · have := k3 x hxr
          rwa [List.append_assoc] at this
      · have := k4; rwa [List.append_assoc] at this
      · have := k5; rwa [List.append_assoc] at this
      · intro nd hnd
        apply k6
        rwa [List.append_assoc]

lemma TopologicalSort_eq (g : Graph) :
    TopologicalSort g =
      if hasCycle g then
        .error "graph has cycles, cannot perform topological sort"
      else
        match topoRoots g ((gids g).length + 1) g.entryPoints ∅ [] with
        | (V1, r1) =>
          match topoRoots g ((gids g).length + 1) (gids g) V1 r1 with
          | (_, r2) => .ok r2.reverse := rfl

/-- On every well-formed acyclic graph, `TopologicalSort` succeeds and
returns each graph node exactly once, ordered so that every edge points
forward: the dependent (`from`) strictly precedes the dependency (`to`). -/
theorem topologicalSort_spec {g : Graph} (hWF : WF g) (hAcy : Acyclic g) :
    ∃ out, TopologicalSort g = .ok out ∧
      (rids out).Nodup ∧
      (∀ u, u ∈ gids g ↔ u ∈ rids out) ∧
      (∀ nd ∈ out, lookupNode g nd.id = some nd) ∧
      (∀ u v, Edge g u v →
        (rids out).indexOf u < (rids out).indexOf v) := by
  have hcy : hasCycle g = false := (hasCycle_iff_acyclic hWF).mpr hAcy
  have hfuel0 : unseen g ∅ < (gids g).length + 1 := by
    have : unseen g ∅ ≤ (gids g).length := by
      unfold unseen
      rw [Finset.sdiff_empty]
      exact (gids g).toFinset_card_le
    omega
  obtain ⟨E1, k1, k2, k3, k4, k5, k6⟩ :=
    topoRoots_inv g hWF hAcy ((gids g).length + 1) g.entryPoints ∅ []
      hWF.entries hfuel0 (by simp [rids]) trivial (by simp [rids]) (by simp)
  simp only [List.nil_append] at k1 k2 k3 k4 k5 k6
  have h1 : topoRoots g ((gids g).length + 1) g.entryPoints ∅ [] =
      ((rids E1).toFinset, E1) := by
    rw [← k2, ← k1]
  have hfuel1 : unseen g ((rids E1).toFinset) < (gids g).length + 1 :=
    lt_of_le_of_lt (unseen_mono (Finset.empty_subset _)) hfuel0
  obtain ⟨E2, m1, m2, m3, m4, m5, m6⟩ :=
    topoRoots_inv g hWF hAcy ((gids g).length + 1) (gids g)
      ((rids E1).toFinset) E1 (fun x hx => hx) hfuel1 rfl k4 k5 k6
  have h2 : topoRoots g ((gids g).length + 1) (gids g)
      ((rids E1).toFinset) E1 =
      ((rids (E1 ++ E2)).toFinset, E1 ++ E2) := by
    rw [← m2, ← m1]
  refine ⟨(E1 ++ E2).reverse, ?_, ?_, ?_, ?_, ?_⟩
  · rw [TopologicalSort_eq, if_neg (by rw [hcy]; simp), h1]
    show (match topoRoots g ((gids g).length + 1) (gids g)
        ((rids E1).toFinset) E1 with
      | (_, r2) => (Except.ok r2.reverse : Except String (List Node))) = _
    rw [h2]
  · show (rids (E1 ++ E2).reverse).Nodup
    unfold rids
    rw [List.map_reverse, List.nodup_reverse]
    exact m5
  · intro u
    constructor
    · intro hu
      unfold rids
      rw [List.map_reverse, List.mem_reverse]
      exact m3 u hu
    · intro hu
      unfold rids at hu
      rw [List.map_reverse, List.mem_reverse] at hu
      obtain ⟨nd, hnd, rfl⟩ := List.mem_map.mp hu
      have := m6 nd hnd
      rw [mem_gids_iff_lookup, this]
      rfl
  · intro nd hnd
    exact m6 nd (List.mem_reverse.mp hnd)
  · intro u v hE
    have hN : (rids (E1 ++ E2)).reverse.Nodup :=
      List.nodup_reverse.mpr m5
    have hu : u ∈ (rids (E1 ++ E2)).reverse := by
      rw [List.mem_reverse]
      exact m3 u (edge_mem_gids hE)
    have hrw : rids ((E1 ++ E2).reverse) = (rids (E1 ++ E2)).reverse := by
      unfold rids
      rw [List.map_reverse]
    rw [hrw]
    exact (finished_edge_lt m4 hN hE hu).2

/-! ## Graph operations: characterisation lemmas -/

lemma lookupNode_append_self {g : Graph} {n : Node}
    (h : lookupNode g n.id = none) :
    lookupNode { g with nodes := g.nodes ++ [(n.id, n)] } n.id = some n := by
  unfold lookupNode at h ⊢
  rw [Option.map_eq_none'] at h
  rw [List.find?_append, h, List.find?_cons_of_pos _ (by simp)]
  rfl

lemma lookupNode_append_other {g : Graph} {n : Node} {u : String}
    (hne : u ≠ n.id) :
    lookupNode { g with nodes := g.nodes ++ [(n.id, n)] } u =
      lookupNode g u := by
  unfold lookupNode
  rw [List.find?_append]
  cases hf : g.nodes.find? (fun p => decide (p.1 = u)) with
  | none =>
    rw [List.find?_cons_of_neg _
      (by simp only [decide_eq_true_eq]; exact Ne.symm hne)]
    rfl
  | some p => rfl

lemma gids_append {g : Graph} {n : Node} :
    gids { g with nodes := g.nodes ++ [(n.id, n)] } = gids g ++ [n.id] := by
  simp [gids]

lemma gids_setDeps {g : Graph} {i : String} {ds : List String} :
    gids (setDeps g i ds) = gids g := by
  unfold gids setDeps
  rw [List.map_map]
  apply List.map_congr_left
  intro p _
  by_cases h : p.1 = i <;> simp [h]

lemma find?_map_keyfix (f : String × Node → String × Node)
    (hf : ∀ p, (f p).1 = p.1) (l : List (String × Node)) (u : String) :
    (l.map f).find? (fun p => p.1 = u) =
      (l.find? (fun p => p.1 = u)).map f := by
  induction l with
  | nil => rfl
  | cons p rest ih =>
    by_cases hp : p.1 = u
    · rw [List.map_cons,
        List.find?_cons_of_pos _ (by simp [hf, hp]),
        List.find?_cons_of_pos _ (by simp [hp])]
      rfl
    · rw [List.map_cons,
        List.find?_cons_of_neg _ (by simp [hf, hp]),
        List.find?_cons_of_neg _ (by simp [hp])]
      exact ih

lemma lookupNode_setDeps {g : Graph} {i : String} {ds : List String}
    (u : String) :
    lookupNode (setDeps g i ds) u =
      (lookupNode g u).map
        (fun n => if u = i then { n with deps := ds } else n) := by
  unfold lookupNode setDeps
  dsimp only
  rw [find?_map_keyfix _ (fun p => by by_cases h : p.1 = i <;> simp [h])]
  cases hd : g.nodes.find? (fun p => decide (p.1 = u)) with
  | none => rfl
  | some p =>
    have hpu : p.1 = u := by simpa using List.find?_some hd
    simp only [Option.map_some']
    congr 1
    by_cases hui : u = i
    · rw [if_pos hui]
      have hpi : p.1 = i := hpu.trans hui
      simp [hpi]
    · rw [if_neg hui]
      have hpi : ¬ p.1 = i := fun h2 => hui (hpu ▸ h2)
      simp [hpi]

lemma setDeps_setDeps {g : Graph} {i : String} {ds1 ds2 : List String} :
    setDeps (setDeps g i ds1) i ds2 = setDeps g i ds2 := by
  unfold setDeps
  simp only [List.map_map]
  congr 1
  apply List.map_congr_left
  intro p _
  by_cases h : p.1 = i <;> simp [h]

lemma nodup_key_unique {l : List (String × Node)}
    (hN : (l.map Prod.fst).Nodup) {p q : String × Node}
    (hp : p ∈ l) (hq : q ∈ l) (hk : p.1 = q.1) : p = q := by
  induction l with
  | nil => exact absurd hp (List.not_mem_nil p)
  | cons x rest ih =>
    rw [List.map_cons, List.nodup_cons] at hN
    rcases List.mem_cons.mp hp with rfl | hpr
    · rcases List.mem_cons.mp hq with rfl | hqr
      · rfl
      · exact absurd (hk ▸ List.mem_map_of_mem Prod.fst hqr) hN.1
    · rcases List.mem_cons.mp hq with rfl | hqr
      · exact absurd (hk ▸ List.mem_map_of_mem Prod.fst hpr) hN.1
      · exact ih hN.2 hpr hqr

lemma setDeps_self {g : Graph} (hN : (gids g).Nodup) {i : String} {n : Node}
    (h : lookupNode g i = some n) : setDeps g i n.deps = g := by
  unfold setDeps
  have hmem : (i, n) ∈ g.nodes := lookupNode_mem h
  have : g.nodes.map (fun p =>
      if p.1 = i then (p.1, { p.2 with deps := n.deps }) else p) =
      g.nodes.map id := by
    apply List.map_congr_left
    intro p hp
    by_cases hpi : p.1 = i
    · have : p = (i, n) := nodup_key_unique hN hp hmem hpi
      subst this
      simp
    · simp [hpi]
  rw [this, List.map_id]

/-! ## Preservation of well-formedness and acyclicity -/

lemma wf_newGraph : WF NewGraph := by
  refine ⟨?_, ?_, ?_, ?_⟩
  · simp [NewGraph, gids]
  · intro p hp; simp [NewGraph] at hp
  · intro p hp; simp [NewGraph] at hp
  · intro e he; simp [NewGraph] at he

lemma acyclic_newGraph : Acyclic NewGraph := by
  intro u hcyc
  obtain ⟨c, hc⟩ := transGen_first_edge hcyc
  obtain ⟨n, hn, _⟩ := hc
  simp [lookupNode, NewGraph] at hn

lemma wf_addNode {g : Graph} (hWF : WF g) {n : Node}
    (hfresh : lookupNode g n.id = none) (hdeps : n.deps = []) :
    WF { g with nodes := g.nodes ++ [(n.id, n)] } := by
  have hmem : n.id ∉ gids g := by
    rw [mem_gids_iff_lookup, hfresh]; simp
  constructor
  · rw [gids_append, List.nodup_append]
    exact ⟨hWF.nodup, List.nodup_singleton _,
      fun x hx => by simp; rintro rfl; exact hmem hx⟩
  · intro p hp
    rcases List.mem_append.mp hp with h | h
    · exact hWF.keyed p h
    · have : p = (n.id, n) := by simpa using h
      subst this; rfl
  · intro p hp d hd
    rcases List.mem_append.mp hp with h | h
    · rw [gids_append]
      exact List.mem_append_left _ (hWF.closed p h d hd)
    · have : p = (n.id, n) := by simpa using h
      subst this
      rw [hdeps] at hd
      exact absurd hd (List.not_mem_nil d)
  · intro e he
    rw [gids_append]
    exact List.mem_append_left _ (hWF.entries e he)

lemma acyclic_addNode {g : Graph} (hAcy : Acyclic g) {n : Node}
    (hfresh : lookupNode g n.id = none) (hdeps : n.deps = []) :
    Acyclic { g with nodes := g.nodes ++ [(n.id, n)] } := by
  have hsub : ∀ u v, Edge { g with nodes := g.nodes ++ [(n.id, n)] } u v →
      Edge g u v := by
    rintro u v ⟨m, hm, hv⟩
    by_cases hu : u = n.id
    · subst hu
      rw [lookupNode_append_self hfresh] at hm
      cases hm
      rw [hdeps] at hv
      exact absurd hv (List.not_mem_nil v)
    · rw [lookupNode_append_other hu] at hm
      exact ⟨m, hm, hv⟩
  intro u hcyc
  exact hAcy u (Relation.TransGen.mono hsub hcyc)

lemma wf_setDeps {g : Graph} (hWF : WF g) {i : String} {ds : List String}
    (hds : ∀ d ∈ ds, d ∈ gids g) : WF (setDeps g i ds) := by
  constructor
  · rw [gids_setDeps]; exact hWF.nodup
  · intro p hp
    unfold setDeps at hp
    obtain ⟨q, hq, hqp⟩ := List.mem_map.mp hp
    by_cases hqi : q.1 = i
    · rw [if_pos hqi] at hqp
      rw [← hqp]
      exact hWF.keyed q hq
    · rw [if_neg hqi] at hqp
      rw [← hqp]
      exact hWF.keyed q hq
  · intro p hp d hd
    rw [gids_setDeps]
    unfold setDeps at hp
    obtain ⟨q, hq, hqp⟩ := List.mem_map.mp hp
    by_cases hqi : q.1 = i
    · rw [if_pos hqi] at hqp
      rw [← hqp] at hd
      simp only [] at hd
      exact hds d hd
    · rw [if_neg hqi] at hqp
      rw [← hqp] at hd
      exact hWF.closed q hq d hd
  · intro e he
    rw [gids_setDeps]
    exact hWF.entries e he

/-! ## The exported operations preserve the invariant -/

lemma addDependency_rollback {g : Graph} (hWF : WF g) {f t : String}
    {fn : Node} (hf : lookupNode g f = some fn) :
    setDeps (setDeps g f (fn.deps ++ [t])) f ((fn.deps ++ [t]).dropLast) =
      g := by
  rw [setDeps_setDeps, List.dropLast_concat]
  exact setDeps_self hWF.nodup hf

lemma reachable_wf_acyclic {g : Graph} (h : Reachable g) :
    WF g ∧ Acyclic g := by
  induction h with
  | new => exact ⟨wf_newGraph, acyclic_newGraph⟩
  | addNode n hr hdeps ih =>
    rename_i g
    by_cases hl : (lookupNode g n.id).isSome = true
    · have heq : (AddNode g n).1 = g := by simp [AddNode, hl]
      rw [heq]; exact ih
    · have hnone : lookupNode g n.id = none :=
        Option.not_isSome_iff_eq_none.mp (by simpa using hl)
      have heq : (AddNode g n).1 =
          { g with nodes := g.nodes ++ [(n.id, n)] } := by
        simp [AddNode, hl]
      rw [heq]
      exact ⟨wf_addNode ih.1 hnone hdeps, acyclic_addNode ih.2 hnone hdeps⟩
  | addDep f t hr ih =>
    rename_i g
    cases hf : lookupNode g f with
    | none =>
      have heq : (AddDependency g f t).1 = g := by
        simp [AddDependency, hf]
      rw [heq]; exact ih
    | some fn =>
      cases ht : lookupNode g t with
      | none =>
        have heq : (AddDependency g f t).1 = g := by
          simp [AddDependency, hf, ht]
        rw [heq]; exact ih
      | some tn =>
        by_cases hdup : t ∈ fn.deps
        · have heq : (AddDependency g f t).1 = g := by
            simp [AddDependency, hf, ht, hdup]
          rw [heq]; exact ih
        · have hWF1 : WF (setDeps g f (fn.deps ++ [t])) := by
            refine wf_setDeps ih.1 ?_
            intro d hd
            rcases List.mem_append.mp hd with h | h
            · exact ih.1.closed (f, fn) (lookupNode_mem hf) d h
            · have : d = t := by simpa using h
              subst this
              rw [mem_gids_iff_lookup, ht]; rfl
          by_cases hc : hasCycle (setDeps g f (fn.deps ++ [t])) = true
          · have heq : (AddDependency g f t).1 = g := by
              unfold AddDependency
              simp only [hf, ht]
              rw [if_neg hdup, if_pos hc]
              exact addDependency_rollback ih.1 hf
            rw [heq]; exact ih
          · have heq : (AddDependency g f t).1 =
                setDeps g f (fn.deps ++ [t]) := by
              unfold AddDependency
              simp only [hf, ht]
              rw [if_neg hdup, if_neg hc]
            rw [heq]
            exact ⟨hWF1, hasCycle_complete hWF1 (by
              cases hcv : hasCycle (setDeps g f (fn.deps ++ [t]))
              · rfl
              · exact absurd hcv hc)⟩
  | mark i hr ih =>
    rename_i g
    cases hm : lookupNode g i with
    | none =>
      have heq : (MarkEntryPoint g i).1 = g := by
        simp [MarkEntryPoint, hm]
      rw [heq]; exact ih
    | some n =>
      by_cases he : i ∈ g.entryPoints
      · have heq : (MarkEntryPoint g i).1 = g := by
          simp [MarkEntryPoint, hm, he]
        rw [heq]; exact ih
      · have heq : (MarkEntryPoint g i).1 =
            { g with entryPoints := g.entryPoints ++ [i] } := by
          simp [MarkEntryPoint, hm, he]
        rw [heq]
        refine ⟨⟨ih.1.nodup, ih.1.keyed, ih.1.closed, ?_⟩, ih.2⟩
        intro e hee
        rcases List.mem_append.mp hee with h | h
        · exact ih.1.entries e h
        · have : e = i := by simpa using h
          subst this
          show e ∈ gids g
          rw [mem_gids_iff_lookup, hm]; rfl

/-! ## Claim C1 -/

/-- C1 (counterexample to the claim as stated): a single `AddNode` call
whose node already lists itself as a dependency succeeds (no error) and
leaves the graph with `hasCycle` true and a genuinely cyclic edge
relation — `AddNode` never inspects the inserted node's dependency list,
so not every AddNode/AddDependency call sequence keeps the graph
acyclic. -/
theorem c1_counterexample :
    (AddNode NewGraph nodeSelf).2 = none ∧
    hasCycle gSelf = true ∧
    ¬ Acyclic gSelf := by
  refine ⟨by decide, by decide, fun h => h "a" ?_⟩
  exact Relation.TransGen.single ⟨nodeSelf, rfl, by decide⟩

/-- C1 (amended): for every graph reachable by AddNode/AddDependency/
MarkEntryPoint calls in which every inserted node carries an empty
dependency list — as every call site in the repository does — the
dependency-edge relation is acyclic and `hasCycle` is false after every
call; an `AddDependency` whose tentative edge would close a cycle returns
the "would create a cycle" failure and leaves the graph exactly as it was,
and every `AddDependency` result again satisfies the invariant. -/
theorem c1_graph_invariant {g : Graph} (h : Reachable g) :
    hasCycle g = false ∧ Acyclic g ∧
    (∀ f t fn, lookupNode g f = some fn →
      (lookupNode g t).isSome = true → t ∉ fn.deps →
      ¬ Acyclic (setDeps g f (fn.deps ++ [t])) →
      AddDependency g f t =
        (g, some ("adding dependency from " ++ f ++ " to " ++ t ++
          " would create a cycle"))) ∧
    (∀ f t, hasCycle (AddDependency g f t).1 = false) := by
  obtain ⟨hWF, hAcy⟩ := reachable_wf_acyclic h
  refine ⟨(hasCycle_iff_acyclic hWF).mpr hAcy, hAcy, ?_, ?_⟩
  · intro f t fn hf ht hdup hnAcy
    obtain ⟨tn, htn⟩ := Option.isSome_iff_exists.mp ht
    have hWF1 : WF (setDeps g f (fn.deps ++ [t])) := by
      refine wf_setDeps hWF ?_
      intro d hd
      rcases List.mem_append.mp hd with h2 | h2
      · exact hWF.closed (f, fn) (lookupNode_mem hf) d h2
      · have : d = t := by simpa using h2
        subst this
        rw [mem_gids_iff_lookup, htn]; rfl
    have hc : hasCycle (setDeps g f (fn.deps ++ [t])) = true := by
      cases hcv : hasCycle (setDeps g f (fn.deps ++ [t]))
      · exact absurd (hasCycle_complete hWF1 hcv) hnAcy
      · rfl
    unfold AddDependency
    simp only [hf, htn]
    rw [if_neg hdup, if_pos hc, addDependency_rollback hWF hf]
  · intro f t
    obtain ⟨hWF2, hAcy2⟩ := reachable_wf_acyclic (Reachable.addDep f t h)
    exact (hasCycle_iff_acyclic hWF2).mpr hAcy2

/-- C1 witness: the amended invariant instantiated on the concrete
two-node graph built through the operations. -/
theorem c1_graph_invariant_witness :
    hasCycle gBuilt = false ∧ Acyclic gBuilt ∧
    (∀ f t fn, lookupNode gBuilt f = some fn →
      (lookupNode gBuilt t).isSome = true → t ∉ fn.deps →
      ¬ Acyclic (setDeps gBuilt f (fn.deps ++ [t])) →
      AddDependency gBuilt f t =
        (gBuilt, some ("adding dependency from " ++ f ++ " to " ++ t ++
          " would create a cycle"))) ∧
    (∀ f t, hasCycle (AddDependency gBuilt f t).1 = false) :=
  c1_graph_invariant
    (Reachable.addDep "a" "b"
      (Reachable.addNode ⟨"b", NodeType.source, "b.c", "", 0, [], ""⟩
        (Reachable.addNode ⟨"a", NodeType.object, "a.o", "", 0, [], ""⟩
          Reachable.new rfl) rfl))

/-! ## Claim C2 -/

/-- C2 (counterexample to the claim as stated): on the acyclic two-node
graph where object `a` depends on source `b`, `TopologicalSort` returns
`[a, b]` — the edge target `b` (the dependency, `to`) appears at a LATER
index than the edge source `a` (`from`), because the code reverses a
post-order that already listed dependencies first.  The claimed
"`to` appears at an earlier index than `from`" is false. -/
theorem c2_counterexample :
    Acyclic gObjSrc ∧ Edge gObjSrc "a" "b" ∧
    (TopologicalSort gObjSrc).map rids = .ok ["a", "b"] ∧
    ¬ ((["a", "b"].indexOf "b" : Nat) < ["a", "b"].indexOf "a") := by
  refine ⟨?_, ⟨⟨"a", NodeType.object, "a.o", "", 0, ["b"], ""⟩, rfl,
    by decide⟩, rfl, by decide⟩
  exact hasCycle_complete ⟨by decide, by decide, by decide, by decide⟩
    (by decide)

/-- C2 (amended): on every well-formed acyclic graph `TopologicalSort`
succeeds and returns every node of the graph exactly once, in an order
where for every edge `from→to` the node `from` appears at an EARLIER index
than `to` (each node precedes all nodes it depends on; the order is a
topological order of the edge relation, which is the reverse of a
dependencies-first build order). -/
theorem c2_topological_sort {g : Graph} (hWF : WF g) (hAcy : Acyclic g) :
    ∃ out, TopologicalSort g = .ok out ∧
      (rids out).Nodup ∧
      (∀ u, u ∈ gids g ↔ u ∈ rids out) ∧
      (∀ nd ∈ out, lookupNode g nd.id = some nd) ∧
      (∀ u v, Edge g u v →
        (rids out).indexOf u < (rids out).indexOf v) :=
  topologicalSort_spec hWF hAcy

/-- C2 witness: the amended statement instantiated on the concrete
two-node graph. -/
theorem c2_topological_sort_witness :
    ∃ out, TopologicalSort gObjSrc = .ok out ∧
      (rids out).Nodup ∧
      (∀ u, u ∈ gids gObjSrc ↔ u ∈ rids out) ∧
      (∀ nd ∈ out, lookupNode gObjSrc nd.id = some nd) ∧
      (∀ u v, Edge gObjSrc u v →
        (rids out).indexOf u < (rids out).indexOf v) :=
  c2_topological_sort ⟨by decide, by decide, by decide, by decide⟩
    (hasCycle_complete ⟨by decide, by decide, by decide, by decide⟩
      (by decide))

/-! ## Cache lemmas -/

lemma find?_mapInsert_self (m : List (String × CacheEntry)) (k : String)
    (v : CacheEntry) :
    (mapInsert m k v).find? (fun q => q.1 = k) = some (k, v) := by
  induction m with
  | nil => simp [mapInsert, List.find?]
  | cons q rest ih =>
    obtain ⟨k1, v1⟩ := q
    by_cases h : k1 = k
    · unfold mapInsert
      rw [if_pos h]
      rw [List.find?_cons_of_pos _ (by simp)]
    · unfold mapInsert
      rw [if_neg h]
      rw [List.find?_cons_of_neg _ (by simpa using h)]
      exact ih

lemma find?_mapInsert_ne (m : List (String × CacheEntry)) (k : String)
    (v : CacheEntry) (p : String) (hne : p ≠ k) :
    (mapInsert m k v).find? (fun q => q.1 = p) =
      m.find? (fun q => q.1 = p) := by
  induction m with
  | nil =>
    simp only [mapInsert]
    rw [List.find?_cons_of_neg _ (by simpa using Ne.symm hne)]
  | cons q rest ih =>
    obtain ⟨k1, v1⟩ := q
    by_cases h : k1 = k
    · unfold mapInsert
      rw [if_pos h]
      rw [List.find?_cons_of_neg _ (by simp [h, Ne.symm hne]),
        List.find?_cons_of_neg _ (by simp [h, Ne.symm hne])]
    · unfold mapInsert
      rw [if_neg h]
      by_cases hp : k1 = p
      · rw [List.find?_cons_of_pos _ (by simpa using hp),
          List.find?_cons_of_pos _ (by simpa using hp)]
      · rw [List.find?_cons_of_neg _ (by simpa using hp),
          List.find?_cons_of_neg _ (by simpa using hp)]
        exact ih

lemma getEntry_putEntry (now : Int) (c : Cache) (e : CacheEntry)
    (p : String) :
    GetEntry (PutEntry now c e) p =
      if p = e.path then some e else GetEntry c p := by
  unfold GetEntry PutEntry
  cases c.buildCache with
  | none =>
    dsimp only
    by_cases hp : p = e.path
    · rw [if_pos hp, hp]
      rw [List.find?_cons_of_pos _ (by simp)]
      rfl
    · rw [if_neg hp]
      rw [List.find?_cons_of_neg _ (by simpa using fun h => hp h.symm)]
      rfl
  | some bc =>
    dsimp only
    by_cases hp : p = e.path
    · rw [if_pos hp, hp, find?_mapInsert_self]
      rfl
    · rw [if_neg hp, find?_mapInsert_ne _ _ _ _ hp]

lemma rebuildDepsLoop_nil {fs : FS} {ts : Int}
    {step : Cache → String → (Bool × Option String) × Cache} {c : Cache} :
    rebuildDepsLoop fs ts step [] c = ((false, none), c) := rfl

lemma rebuildDepsLoop_cons_ok {fs : FS} {ts : Int}
    {step : Cache → String → (Bool × Option String) × Cache}
    {c c2 : Cache} {d : String} {rest : List String} {td : Int} {b : Bool}
    {e : Option String} (hs : fs.stat d = .ok td)
    (hstep2 : step c d = ((b, e), c2)) :
    rebuildDepsLoop fs ts step (d :: rest) c =
      if e.isSome || b then ((true, e), c2)
      else if ts < td then ((true, none), c2)
      else rebuildDepsLoop fs ts step rest c2 := by
  rw [rebuildDepsLoop, hs, hstep2]

lemma rebuildDepsLoop_cons_notExist {fs : FS} {ts : Int}
    {step : Cache → String → (Bool × Option String) × Cache}
    {c : Cache} {d : String} {rest : List String}
    (hs : fs.stat d = .notExist) :
    rebuildDepsLoop fs ts step (d :: rest) c = ((true, none), c) := by
  rw [rebuildDepsLoop, hs]

lemma rebuildDepsLoop_cons_err {fs : FS} {ts : Int}
    {step : Cache → String → (Bool × Option String) × Cache}
    {c : Cache} {d : String} {rest : List String}
    (hs : fs.stat d = .err) :
    rebuildDepsLoop fs ts step (d :: rest) c = ((true, none), c) := by
  rw [rebuildDepsLoop, hs]

/-- The dependency loop never touches the threaded cache when the step
does not. -/
lemma rebuildDepsLoop_state (fs : FS) (ts : Int)
    (step : Cache → String → (Bool × Option String) × Cache)
    (hstep : ∀ c2 d, (step c2 d).2 = c2) :
    ∀ ds c, (rebuildDepsLoop fs ts step ds c).2 = c := by
  intro ds
  induction ds with
  | nil => intro c; rfl
  | cons d rest ih =>
    intro c
    cases hs : fs.stat d with
    | ok depTime =>
      rcases hstep2 : step c d with ⟨⟨rebuild, e⟩, c2⟩
      have hc2 : c2 = c := by have h := hstep c d; rwa [hstep2] at h
      subst hc2
      rw [rebuildDepsLoop_cons_ok hs hstep2]
      by_cases he : (e.isSome || rebuild) = true
      · rw [if_pos he]
      · rw [if_neg he]
        by_cases ht : ts < depTime
        · rw [if_pos ht]
        · rw [if_neg ht]
          exact ih _
    | notExist => rw [rebuildDepsLoop_cons_notExist hs]
    | err => rw [rebuildDepsLoop_cons_err hs]

/-- `NeedsRebuild` never mutates the cache, at any recursion depth. -/
lemma needsRebuild_state (fs : FS) :
    ∀ fuel c path ds h, (NeedsRebuild fs fuel c path ds h).2 = c := by
  intro fuel
  induction fuel with
  | zero => intro c path ds h; rfl
  | succ fuel ih =>
    intro c path ds h
    unfold NeedsRebuild
    cases GetEntry c path with
    | none => rfl
    | some entry =>
      dsimp only
      cases fs.stat path with
      | notExist => rfl
      | err => rfl
      | ok modTime =>
        dsimp only
        by_cases h1 : modTime ≠ entry.timestamp
        · rw [if_pos h1]
        · rw [if_neg h1]
          cases fs.fileHash path with
          | none => rfl
          | some currentHash =>
            dsimp only
            by_cases h2 : currentHash ≠ entry.hash
            · rw [if_pos h2]
            · rw [if_neg h2]
              by_cases h3 : h ≠ entry.commandHash
              · rw [if_pos h3]
              · rw [if_neg h3]
                exact rebuildDepsLoop_state fs entry.timestamp _
                  (fun c2 d => ih c2 d [] "") ds c

/-- An error result from `NeedsRebuild` always reports a rebuild. -/
lemma needsRebuild_err_true (fs : FS) :
    ∀ fuel c path ds h, (NeedsRebuild fs fuel c path ds h).1.2.isSome →
      (NeedsRebuild fs fuel c path ds h).1.1 = true := by
  have loop : ∀ (ts : Int)
      (step : Cache → String → (Bool × Option String) × Cache) ds c,
      (rebuildDepsLoop fs ts step ds c).1.2.isSome →
      (rebuildDepsLoop fs ts step ds c).1.1 = true := by
    intro ts step ds
    induction ds with
    | nil => intro c h; rw [rebuildDepsLoop_nil] at h; simp at h
    | cons d rest ih =>
      intro c h
      cases hs : fs.stat d with
      | ok depTime =>
        rcases hstep2 : step c d with ⟨⟨rebuild, e⟩, c2⟩
        rw [rebuildDepsLoop_cons_ok hs hstep2] at h ⊢
        by_cases he : (e.isSome || rebuild) = true
        · rw [if_pos he] at h ⊢
        · rw [if_neg he] at h ⊢
          by_cases ht : ts < depTime
          · rw [if_pos ht] at h ⊢
          · rw [if_neg ht] at h ⊢
            exact ih c2 h
      | notExist => rw [rebuildDepsLoop_cons_notExist hs]
      | err => rw [rebuildDepsLoop_cons_err hs]
  intro fuel
  induction fuel with
  | zero => intro c path ds h hs; simp [NeedsRebuild] at hs
  | succ fuel ih =>
    intro c path ds h hs
    unfold NeedsRebuild at hs ⊢
    cases hge : GetEntry c path with
    | none => rfl
    | some entry =>
      rw [hge] at hs
      dsimp only at hs ⊢
      cases hst : fs.stat path with
      | notExist => rfl
      | err => rfl
      | ok modTime =>
        rw [hst] at hs
        dsimp only at hs ⊢
        by_cases h1 : modTime ≠ entry.timestamp
        · rw [if_pos h1]
        · rw [if_neg h1] at hs ⊢
          cases hfh : fs.fileHash path with
          | none => rfl
          | some currentHash =>
            rw [hfh] at hs
            dsimp only at hs ⊢
            by_cases h2 : currentHash ≠ entry.hash
            · rw [if_pos h2]
            · rw [if_neg h2] at hs ⊢
              by_cases h3 : h ≠ entry.commandHash
              · rw [if_pos h3]
              · rw [if_neg h3] at hs ⊢
                exact loop entry.timestamp _ ds c hs

/-- `NeedsRebuild` with an empty dependency list never recurses, so any
positive fuel gives the same answer. -/
lemma needsRebuild_nil_fuel (fs : FS) (c : Cache) (d h2 : String)
    (f1 f2 : Nat) :
    NeedsRebuild fs (f1 + 1) c d [] h2 = NeedsRebuild fs (f2 + 1) c d [] h2 := by
  unfold NeedsRebuild
  cases GetEntry c d with
  | none => rfl
  | some entry =>
    dsimp only
    cases fs.stat d with
    | notExist => rfl
    | err => rfl
    | ok t =>
      dsimp only
      by_cases h1 : t ≠ entry.timestamp
      · simp only [if_pos h1]
      · simp only [if_neg h1]
        cases fs.fileHash d with
        | none => rfl
        | some ch =>
          dsimp only
          by_cases h3 : ch ≠ entry.hash
          · simp only [if_pos h3]
          · simp only [if_neg h3]
            by_cases h4 : h2 ≠ entry.commandHash
            · simp only [if_pos h4]
            · simp only [if_neg h4]
              rw [rebuildDepsLoop_nil, rebuildDepsLoop_nil]

lemma rebuildDepsLoop_false_iff (fs : FS) (ts : Int)
    (step : Cache → String → (Bool × Option String) × Cache)
    (herr : ∀ c2 d, (step c2 d).1.2.isSome → (step c2 d).1.1 = true)
    (hstate : ∀ c2 d, (step c2 d).2 = c2) :
    ∀ ds c, (rebuildDepsLoop fs ts step ds c).1.1 = false ↔
      ∀ d ∈ ds, ∃ td, fs.stat d = .ok td ∧ (step c d).1.1 = false ∧
        td ≤ ts := by
  intro ds
  induction ds with
  | nil =>
    intro c
    rw [rebuildDepsLoop_nil]
    simp
  | cons d rest ih =>
    intro c
    cases hs : fs.stat d with
    | notExist =>
      rw [rebuildDepsLoop_cons_notExist hs]
      simp only [List.mem_cons]
      constructor
      · intro h; exact absurd h (by simp)
      · intro h
        obtain ⟨td, htd, _, _⟩ := h d (Or.inl rfl)
        rw [hs] at htd; exact absurd htd (by simp)
    | err =>
      rw [rebuildDepsLoop_cons_err hs]
      simp only [List.mem_cons]
      constructor
      · intro h; exact absurd h (by simp)
      · intro h
        obtain ⟨td, htd, _, _⟩ := h d (Or.inl rfl)
        rw [hs] at htd; exact absurd htd (by simp)
    | ok td =>
      rcases hstep2 : step c d with ⟨⟨b, e⟩, c2⟩
      have hc2 : c2 = c := by have h := hstate c d; rwa [hstep2] at h
      rw [hc2] at hstep2
      rw [rebuildDepsLoop_cons_ok hs hstep2]
      by_cases hbe : (e.isSome || b) = true
      · rw [if_pos hbe]
        have hb : b = true := by
          rcases Bool.or_eq_true_iff.mp hbe with h | h
          · have h2 := herr c d
            rw [hstep2] at h2
            exact h2 h
          · exact h
        simp only [List.mem_cons]
        constructor
        · intro h; exact absurd h (by simp)
        · intro h
          obtain ⟨td2, htd2, hfalse, _⟩ := h d (Or.inl rfl)
          rw [hstep2, hb] at hfalse
          exact absurd hfalse (by simp)
      · rw [if_neg hbe]
        have hb : b = false := by
          cases b with
          | false => rfl
          | true => exact absurd (Bool.or_eq_true_iff.mpr (Or.inr rfl)) hbe
        by_cases ht : ts < td
        · rw [if_pos ht]
          simp only [List.mem_cons]
          constructor
          · intro h; exact absurd h (by simp)
          · intro h
            obtain ⟨td2, htd2, _, hle⟩ := h d (Or.inl rfl)
            rw [hs] at htd2
            have : td = td2 := by cases htd2; rfl
            omega
        · rw [if_neg ht]
          rw [ih c]
          simp only [List.mem_cons]
          constructor
          · intro h x hx
            rcases hx with rfl | hx
            · exact ⟨td, hs, by rw [hstep2, hb], by omega⟩
            · exact h x hx
          · intro h x hx
            exact h x (Or.inr hx)

/-- The characterisation of `NeedsRebuild` at its call shape: it reports
"no rebuild" exactly when an entry exists, the file's stat matches the
stored timestamp, its content hash matches, the command hash matches, and
every dependency stats successfully, passes its own (empty-context)
recursive check, and is not newer than the stored timestamp. -/
lemma needsRebuild_false_iff (c : Cache) (fs : FS) (path : String)
    (ds : List String) (h : String) :
    (needsRebuild2 c fs path ds h).1 = false ↔
      ∃ e, GetEntry c path = some e ∧ fs.stat path = .ok e.timestamp ∧
        fs.fileHash path = some e.hash ∧ h = e.commandHash ∧
        ∀ d ∈ ds, ∃ td, fs.stat d = .ok td ∧
          (needsRebuild2 c fs d [] "").1 = false ∧ td ≤ e.timestamp := by
  unfold needsRebuild2
  unfold NeedsRebuild
  cases hge : GetEntry c path with
  | none =>
    constructor
    · intro hx; exact absurd hx (by simp)
    · rintro ⟨e, he, _⟩; exact absurd he (by simp)
  | some entry =>
    dsimp only
    cases hst : fs.stat path with
    | notExist =>
      constructor
      · intro hx; exact absurd hx (by simp)
      · rintro ⟨e, he, hst2, _⟩
        exact absurd hst2 (by simp)
    | err =>
      constructor
      · intro hx; exact absurd hx (by simp)
      · rintro ⟨e, he, hst2, _⟩
        exact absurd hst2 (by simp)
    | ok t =>
      dsimp only
      by_cases h1 : t ≠ entry.timestamp
      · rw [if_pos h1]
        constructor
        · intro hx; exact absurd hx (by simp)
        · rintro ⟨e, he, hst2, _⟩
          rw [Option.some_inj] at he
          subst he
          have : t = entry.timestamp := by injection hst2
          exact absurd this h1
      · rw [if_neg h1]
        rw [Classical.not_not] at h1
        cases hfh : fs.fileHash path with
        | none =>
          constructor
          · intro hx; exact absurd hx (by simp)
          · rintro ⟨e, he, _, hfh2, _⟩
            exact absurd hfh2 (by simp)
        | some ch =>
          dsimp only
          by_cases h2 : ch ≠ entry.hash
          · rw [if_pos h2]
            constructor
            · intro hx; exact absurd hx (by simp)
            · rintro ⟨e, he, _, hfh2, _⟩
              rw [Option.some_inj] at he
              subst he
              have : ch = entry.hash := by injection hfh2
              exact absurd this h2
          · rw [if_neg h2]
            rw [Classical.not_not] at h2
            by_cases h3 : h ≠ entry.commandHash
            · rw [if_pos h3]
              constructor
              · intro hx; exact absurd hx (by simp)
              · rintro ⟨e, he, _, _, hch, _⟩
                rw [Option.some_inj] at he
                subst he
                exact absurd hch h3
            · rw [if_neg h3]
              rw [Classical.not_not] at h3
              rw [rebuildDepsLoop_false_iff fs entry.timestamp _
                (fun c2 d => needsRebuild_err_true fs 1 c2 d [] "")
                (fun c2 d => needsRebuild_state fs 1 c2 d [] "") ds c]
              constructor
              · intro hx
                refine ⟨entry, rfl, by rw [h1], by rw [h2], h3, ?_⟩
                intro d hd
                obtain ⟨td, ha, hb, hc⟩ := hx d hd
                refine ⟨td, ha, ?_, hc⟩
                show (NeedsRebuild fs 2 c d [] "").1.1 = false
                rw [needsRebuild_nil_fuel fs c d "" 1 0]
                exact hb
              · rintro ⟨e, he, _, _, _, hx⟩
                rw [Option.some_inj] at he
                subst he
                intro d hd
                obtain ⟨td, ha, hb, hc⟩ := hx d hd
                refine ⟨td, ha, ?_, hc⟩
                show (NeedsRebuild fs 1 c d [] "").1.1 = false
                rw [needsRebuild_nil_fuel fs c d "" 0 1]
                exact hb

/-! ## Claim C3 -/

/-- C3 (counterexample to the claim as stated): `UpdateEntry` for `p` with
dependency list `["d"]` followed immediately by `NeedsRebuild` on the same
unmodified path, dependencies, and command hash returns `true`, not
`false` — the recursive dependency check looks the dependency `d` up in
the cache, finds no entry for it (header and source dependencies never
receive entries), and forces a rebuild. -/
theorem c3_counterexample :
    UpdateEntry 100 (NewCache "build.json") fsC3 "p" ["d"] "CH" "p.o" 7 =
      .ok cacheC3 ∧
    (needsRebuild2 cacheC3 fsC3 "p" ["d"] "CH").1 = true := by
  constructor
  · rfl
  · decide

/-- C3 (amended): `UpdateEntry` followed immediately by `NeedsRebuild` on
the same unmodified path and command hash returns `false` provided every
listed dependency itself passes the recursive check
`NeedsRebuild(dep, [], "")` and is not newer than the artifact — in
particular whenever the dependency list is empty. -/
theorem c3_cache_roundtrip (now : Int) (c c2 : Cache) (fs : FS)
    (path : String) (ds : List String) (ch obj : String) (dur t : Int)
    (hh : String)
    (hstat : fs.stat path = .ok t) (hhash : fs.fileHash path = some hh)
    (hupd : UpdateEntry now c fs path ds ch obj dur = .ok c2)
    (hdeps : ∀ d ∈ ds, ∃ td, fs.stat d = .ok td ∧
      (needsRebuild2 c2 fs d [] "").1 = false ∧ td ≤ t) :
    (needsRebuild2 c2 fs path ds ch).1 = false := by
  have hc2 : c2 = PutEntry now c ⟨path, hh, t, ds, ch, obj, dur⟩ := by
    unfold UpdateEntry at hupd
    rw [hstat] at hupd
    dsimp only at hupd
    rw [hhash] at hupd
    dsimp only at hupd
    injection hupd with h2
    exact h2.symm
  rw [needsRebuild_false_iff]
  refine ⟨⟨path, hh, t, ds, ch, obj, dur⟩, ?_, hstat, hhash, rfl, hdeps⟩
  rw [hc2, getEntry_putEntry]
  simp

/-- C3 witness: the amended round trip on the concrete filesystem with an
empty dependency list. -/
theorem c3_cache_roundtrip_witness :
    (needsRebuild2 cacheC3e fsC3 "p" [] "CH").1 = false :=
  c3_cache_roundtrip 100 (NewCache "build.json") cacheC3e fsC3 "p" [] "CH"
    "p.o" 7 10 "HP" rfl rfl rfl (by simp)

/-! ## Claim C4 -/

/-- C4: `NeedsRebuild` returns `false` exactly when every check passes —
an entry exists, the artifact stats successfully with the stored
modification time, its content hash matches, the command hash matches,
and every dependency stats successfully, passes the recursive check
(performed with an empty dependency list and empty command hash, as the
source recurses), and is not newer than the stored timestamp; `true` is
returned whenever any of these fails.  Moreover a stat or hashing error
(the `isSome` error component) still yields `true` — a rebuild, not an
abort. -/
theorem c4_needs_rebuild_spec (c : Cache) (fs : FS) (path : String)
    (ds : List String) (h : String) :
    ((needsRebuild2 c fs path ds h).1 = false ↔
      ∃ e, GetEntry c path = some e ∧ fs.stat path = .ok e.timestamp ∧
        fs.fileHash path = some e.hash ∧ h = e.commandHash ∧
        ∀ d ∈ ds, ∃ td, fs.stat d = .ok td ∧
          (needsRebuild2 c fs d [] "").1 = false ∧ td ≤ e.timestamp) ∧
    ((needsRebuild2 c fs path ds h).2.isSome →
      (needsRebuild2 c fs path ds h).1 = true) :=
  ⟨needsRebuild_false_iff c fs path ds h,
   fun hx => needsRebuild_err_true fs 2 c path ds h hx⟩

/-! ## Claim C5 -/

/-- C5 (counterexample to the claim as stated): the command hash is one
SHA-256 sum over the command name and the arguments concatenated without
any separator, so the distinct command lines `gcc -O2` and `gc c-O2`
produce the same byte stream `gcc-O2` and hence the same hash, and
`NeedsRebuild` then returns `false` although the (command, args) pair
changed. -/
theorem c5_counterexample :
    ("gcc", ["-O2"]) ≠ ("gc", ["c-O2"]) ∧
    CalculateCommandHash "gcc" ["-O2"] =
      CalculateCommandHash "gc" ["c-O2"] ∧
    GetEntry cacheC5 "p" =
      some ⟨"p", "HP", 10, [], CalculateCommandHash "gcc" ["-O2"], "p.o", 7⟩ ∧
    (needsRebuild2 cacheC5 fsC3 "p" []
      (CalculateCommandHash "gc" ["c-O2"])).1 = false := by
  refine ⟨by decide, rfl, rfl, by decide⟩

/-- C5 (amended): two (command, argument-list) pairs whose concatenated
byte streams differ produce different command hashes, and a command hash
different from the stored one makes `NeedsRebuild` return `true` whatever
the state of the artifact and its dependencies. -/
theorem c5_command_hash_invalidation (cmd1 cmd2 : String)
    (args1 args2 : List String)
    (hconc : cmd1 ++ String.join args1 ≠ cmd2 ++ String.join args2) :
    CalculateCommandHash cmd1 args1 ≠ CalculateCommandHash cmd2 args2 ∧
    ∀ (c : Cache) (fs : FS) (path : String) (ds : List String)
      (e : CacheEntry), GetEntry c path = some e →
      e.commandHash = CalculateCommandHash cmd1 args1 →
      (needsRebuild2 c fs path ds (CalculateCommandHash cmd2 args2)).1 =
        true := by
  constructor
  · exact hconc
  · intro c fs path ds e hge hch
    cases hres : (needsRebuild2 c fs path ds
        (CalculateCommandHash cmd2 args2)).1 with
    | true => rfl
    | false =>
      obtain ⟨e2, hge2, _, _, hcmd, _⟩ :=
        (needsRebuild_false_iff c fs path ds
          (CalculateCommandHash cmd2 args2)).mp hres
      rw [hge] at hge2
      rw [Option.some_inj] at hge2
      subst hge2
      rw [hch] at hcmd
      exact absurd hcmd.symm hconc

/-- C5 witness: the amended invalidation for the genuinely different byte
streams of `gcc -O2` and `gcc -O3`. -/
theorem c5_command_hash_invalidation_witness :
    CalculateCommandHash "gcc" ["-O2"] ≠ CalculateCommandHash "gcc" ["-O3"] ∧
    ∀ (c : Cache) (fs : FS) (path : String) (ds : List String)
      (e : CacheEntry), GetEntry c path = some e →
      e.commandHash = CalculateCommandHash "gcc" ["-O2"] →
      (needsRebuild2 c fs path ds (CalculateCommandHash "gcc" ["-O3"])).1 =
        true :=
  c5_command_hash_invalidation "gcc" "gcc" ["-O2"] ["-O3"] (by decide)

/-! ## Claim C6 -/

/-- C6: `Load` succeeds on a missing cache file, installing a fresh empty
cache (version 1.0, empty entries map) rather than failing, and it
returns an error exactly for content that exists but cannot be parsed. -/
theorem c6_load_missing_file (c : Cache) (now : Int) :
    Load c .absent now =
      .ok { c with buildCache := some ⟨"1.0", [], now⟩ } ∧
    (∀ d : DiskFile, (∃ msg, Load c d now = .error msg) ↔
      d = .malformed) := by
  refine ⟨rfl, ?_⟩
  intro d
  cases d with
  | absent =>
    constructor
    · rintro ⟨msg, hmsg⟩; exact absurd hmsg (by simp [Load])
    · intro hd; exact absurd hd (by simp)
  | malformed => exact ⟨fun _ => rfl, fun _ => ⟨"failed to parse cache file", rfl⟩⟩
  | wellFormed bc =>
    constructor
    · rintro ⟨msg, hmsg⟩; exact absurd hmsg (by simp [Load])
    · intro hd; exact absurd hd (by simp)

/-! ## Claim C7 -/

/-- C7: `Load` performs no version check at all — a well-formed cache file
with a backward-incompatible version (here 0.9, with a non-empty entries
map) is installed verbatim: the stored entries are kept, not discarded,
contradicting the specified treat-as-empty behaviour. -/
theorem c7_load_keeps_incompatible_version (c : Cache) (now : Int)
    (bc : BuildCache) :
    Load c (.wellFormed bc) now = .ok { c with buildCache := some bc } ∧
    (Load (NewCache "build.json")
        (.wellFormed ⟨"0.9", [("x", ⟨"x", "H", 1, [], "", "x.o", 2⟩)], 5⟩)
        100).map (fun c2 => c2.buildCache.map (·.entries)) =
      .ok (some [("x", ⟨"x", "H", 1, [], "", "x.o", 2⟩)]) :=
  ⟨rfl, rfl⟩

/-! ## Claim C10 -/

/-- C10: `NeedsRebuild` is a pure query with respect to the cache state —
the threaded cache value it returns is identical to the one it was given,
at every recursion depth, whatever the outcome. -/
theorem c10_needs_rebuild_pure (fs : FS) (fuel : Nat) (c : Cache)
    (path : String) (ds : List String) (h : String) :
    (NeedsRebuild fs fuel c path ds h).2 = c :=
  needsRebuild_state fs fuel c path ds h

/-! ## Builder lemmas -/

lemma str_concat3_ne (a d b : String) (ha : 0 < a.length) :
    a ++ d ++ b ≠ "" := by
  intro h
  have h2 := congrArg String.length h
  rw [String.length_append, String.length_append] at h2
  simp at h2
  omega

lemma depStatLoop_nonempty (fs : FS) (t : Int) :
    ∀ ds b2 r2, depStatLoop fs t ds = some (b2, r2) → r2 ≠ "" := by
  intro ds
  induction ds with
  | nil => intro b2 r2 h; exact absurd h (by simp [depStatLoop])
  | cons d rest ih =>
    intro b2 r2 h
    unfold depStatLoop at h
    cases hs : fs.stat d with
    | ok td =>
      rw [hs] at h
      dsimp only at h
      by_cases ht : t < td
      · rw [if_pos ht] at h
        simp only [Option.some_inj, Prod.mk.injEq] at h
        rw [← h.2]
        exact str_concat3_ne "dependency " d " modified" (by decide)
      · rw [if_neg ht] at h
        exact ih b2 r2 h
    | notExist =>
      rw [hs] at h
      simp only [Option.some_inj, Prod.mk.injEq] at h
      rw [← h.2]
      decide
    | err =>
      rw [hs] at h
      simp only [Option.some_inj, Prod.mk.injEq] at h
      rw [← h.2]
      decide

/-! ## Claim C9 -/

/-- C9: whenever the builder's `needsRebuild` returns at all (the modelled
`some`; the `none` states are the Go panics — indexing an empty
dependency list, and dereferencing the nil object `FileInfo` in the
modification-time comparison after a non-`IsNotExist` object-stat error
with a successful source stat), the reason string is non-empty on every
return path for a non-empty dependency list; consequently the
error-detection branch of `scheduleCompilationTasks` guarded by the
reason being empty can never be taken. -/
theorem c9_reason_nonempty (c : Cache) (fs : FS) (obj : String)
    (ds : List String) (h : String) (b : Bool) (r : String)
    (hds : ds ≠ [])
    (hres : builderNeedsRebuild c fs obj ds h = some (b, r)) :
    r ≠ "" := by
  unfold builderNeedsRebuild at hres
  by_cases hnr : (needsRebuild2 c fs obj ds h).2 = none ∧
      (needsRebuild2 c fs obj ds h).1 = true
  · rw [if_pos hnr] at hres
    simp only [Option.some_inj, Prod.mk.injEq] at hres
    rw [← hres.2]
    decide
  · rw [if_neg hnr] at hres
    cases hso : fs.stat obj with
    | err =>
      rw [hso] at hres
      cases ds with
      | nil => exact absurd rfl hds
      | cons src rest =>
        dsimp only at hres
        cases hss : fs.stat src with
        | ok srcTime =>
          rw [hss] at hres
          exact absurd hres (by simp)
        | notExist =>
          rw [hss] at hres
          simp only [Option.some_inj, Prod.mk.injEq] at hres
          rw [← hres.2]
          decide
        | err =>
          rw [hss] at hres
          simp only [Option.some_inj, Prod.mk.injEq] at hres
          rw [← hres.2]
          decide
    | notExist =>
      rw [hso] at hres
      simp only [Option.some_inj, Prod.mk.injEq] at hres
      rw [← hres.2]
      decide
    | ok objTime =>
      rw [hso] at hres
      dsimp only at hres
      cases ds with
      | nil => exact absurd rfl hds
      | cons src rest =>
        dsimp only at hres
        cases hss : fs.stat src with
        | notExist =>
          rw [hss] at hres
          simp only [Option.some_inj, Prod.mk.injEq] at hres
          rw [← hres.2]
          decide
        | err =>
          rw [hss] at hres
          simp only [Option.some_inj, Prod.mk.injEq] at hres
          rw [← hres.2]
          decide
        | ok srcTime =>
          rw [hss] at hres
          dsimp only at hres
          by_cases hto : objTime < srcTime
          · rw [if_pos hto] at hres
            simp only [Option.some_inj, Prod.mk.injEq] at hres
            rw [← hres.2]
            decide
          · rw [if_neg hto] at hres
            cases hdl : depStatLoop fs objTime rest with
            | none =>
              rw [hdl] at hres
              simp only [Option.some_inj, Prod.mk.injEq] at hres
              rw [← hres.2]
              decide
            | some res =>
              rw [hdl] at hres
              simp only [Option.some_inj] at hres
              rcases res with ⟨b2, r2⟩
              have h3 := depStatLoop_nonempty fs objTime rest b2 r2 hdl
              have h4 : r = r2 := by
                have := congrArg Prod.snd hres
                simpa using this.symm
              rw [h4]
              exact h3

/-- C9 witness: a concrete return with the non-empty reason. -/
theorem c9_reason_nonempty_witness :
    (["s"] : List String) ≠ [] ∧
    builderNeedsRebuild (NewCache "x") fsC3 "o" ["s"] "h" =
      some (true, "cache indicates rebuild needed") ∧
    ("cache indicates rebuild needed" : String) ≠ "" :=
  ⟨by decide, by decide,
   c9_reason_nonempty (NewCache "x") fsC3 "o" ["s"] "h" true
     "cache indicates rebuild needed" (by decide) (by decide)⟩

/-! ## Claim C8 -/

lemma scheduleWait_nil {now : Int} {fs : FS} {deps : String → List String}
    {ch : String} {c : Cache} :
    scheduleWait now fs deps ch [] c = (c, []) := rfl

lemma scheduleWait_cons_none {now : Int} {fs : FS}
    {deps : String → List String} {ch : String} {c c2 : Cache} {t : Task}
    {rest : List (Task × Option TaskResult)} {es : List String}
    (hw : scheduleWait now fs deps ch rest c = (c2, es)) :
    scheduleWait now fs deps ch ((t, none) :: rest) c =
      (c2, ("Compilation of " ++ t.sourceFile ++ " failed: unknown error")
        :: es) := by
  rw [scheduleWait, hw]

lemma scheduleWait_cons_fail {now : Int} {fs : FS}
    {deps : String → List String} {ch : String} {c c2 : Cache} {t : Task}
    {r : TaskResult} {rest : List (Task × Option TaskResult)}
    {es : List String} (hr : r.success = false)
    (hw : scheduleWait now fs deps ch rest c = (c2, es)) :
    scheduleWait now fs deps ch ((t, some r) :: rest) c =
      (c2, ("Compilation of " ++ t.sourceFile ++ " failed: " ++ r.errText)
        :: es) := by
  rw [scheduleWait, if_neg (by simp [hr]), hw]

lemma scheduleWait_cons_success {now : Int} {fs : FS}
    {deps : String → List String} {ch : String} {c : Cache} {t : Task}
    {r : TaskResult} {rest : List (Task × Option TaskResult)}
    (hr : r.success = true) :
    scheduleWait now fs deps ch ((t, some r) :: rest) c =
      scheduleWait now fs deps ch rest
        (match UpdateEntry now c fs t.outputFile
            (t.sourceFile :: deps t.sourceFile) ch t.outputFile
            r.duration with
         | .ok c3 => c3
         | .error _ => c) := by
  rw [scheduleWait, if_pos hr]

lemma scheduleWait_error_count (now : Int) (fs : FS)
    (deps : String → List String) (ch : String) :
    ∀ (tasks : List (Task × Option TaskResult)) (c : Cache),
      (scheduleWait now fs deps ch tasks c).2.length =
        (tasks.filter (fun tr => match tr.2 with
          | some r => !r.success
          | none => true)).length := by
  intro tasks
  induction tasks with
  | nil => intro c; rw [scheduleWait_nil]; rfl
  | cons tr rest ih =>
    intro c
    obtain ⟨t, res⟩ := tr
    cases res with
    | none =>
      rcases hw : scheduleWait now fs deps ch rest c with ⟨c2, es⟩
      rw [scheduleWait_cons_none hw]
      have h2 := ih c
      rw [hw] at h2
      simp only [List.filter_cons]
      simp only [List.length_cons]
      rw [show es.length = _ from h2]
      rfl
    | some r =>
      cases hrs : r.success with
      | false =>
        rcases hw : scheduleWait now fs deps ch rest c with ⟨c2, es⟩
        rw [scheduleWait_cons_fail hrs hw]
        have h2 := ih c
        rw [hw] at h2
        simp only [List.filter_cons, hrs]
        simp only [List.length_cons]
        rw [show es.length = _ from h2]
        rfl
      | true =>
        rw [scheduleWait_cons_success hrs]
        rw [ih]
        simp [List.filter_cons, hrs]

lemma scheduleWait_cache_frame (now : Int) (fs : FS)
    (deps : String → List String) (ch : String) :
    ∀ (tasks : List (Task × Option TaskResult)) (c : Cache) (p : String),
      GetEntry (scheduleWait now fs deps ch tasks c).1 p ≠ GetEntry c p →
      ∃ tr ∈ tasks, (∃ r, tr.2 = some r ∧ r.success = true) ∧
        tr.1.outputFile = p := by
  intro tasks
  induction tasks with
  | nil => intro c p h; rw [scheduleWait_nil] at h; exact absurd rfl h
  | cons tr rest ih =>
    intro c p h
    obtain ⟨t, res⟩ := tr
    cases res with
    | none =>
      rcases hw : scheduleWait now fs deps ch rest c with ⟨c2, es⟩
      rw [scheduleWait_cons_none hw] at h
      have h2 : GetEntry (scheduleWait now fs deps ch rest c).1 p ≠
          GetEntry c p := by rw [hw]; exact h
      obtain ⟨tr2, htr2, hsucc, hout⟩ := ih c p h2
      exact ⟨tr2, List.mem_cons_of_mem _ htr2, hsucc, hout⟩
    | some r =>
      cases hrs : r.success with
      | false =>
        rcases hw : scheduleWait now fs deps ch rest c with ⟨c2, es⟩
        rw [scheduleWait_cons_fail hrs hw] at h
        have h2 : GetEntry (scheduleWait now fs deps ch rest c).1 p ≠
            GetEntry c p := by rw [hw]; exact h
        obtain ⟨tr2, htr2, hsucc, hout⟩ := ih c p h2
        exact ⟨tr2, List.mem_cons_of_mem _ htr2, hsucc, hout⟩
      | true =>
        rw [scheduleWait_cons_success hrs] at h
        cases hup : UpdateEntry now c fs t.outputFile
            (t.sourceFile :: deps t.sourceFile) ch t.outputFile
            r.duration with
        | error msg =>
          rw [hup] at h
          obtain ⟨tr2, htr2, hsucc, hout⟩ := ih c p h
          exact ⟨tr2, List.mem_cons_of_mem _ htr2, hsucc, hout⟩
        | ok c3 =>
          rw [hup] at h
          by_cases hc3 : GetEntry c3 p = GetEntry c p
          · have h2 : GetEntry (scheduleWait now fs deps ch rest c3).1 p ≠
                GetEntry c3 p := by rw [hc3]; exact h
            obtain ⟨tr2, htr2, hsucc, hout⟩ := ih c3 p h2
            exact ⟨tr2, List.mem_cons_of_mem _ htr2, hsucc, hout⟩
          · -- the updated entry differs: it can only be the output file
            have hpath : p = t.outputFile := by
              unfold UpdateEntry at hup
              cases hso : fs.stat t.outputFile with
              | ok mt =>
                rw [hso] at hup
                dsimp only at hup
                cases hfh : fs.fileHash t.outputFile with
                | some hh =>
                  rw [hfh] at hup
                  dsimp only at hup
                  injection hup with hup2
                  rw [← hup2] at hc3
                  rw [getEntry_putEntry] at hc3
                  by_cases hpp : p = t.outputFile
                  · exact hpp
                  · rw [if_neg (by exact hpp)] at hc3
                    exact absurd rfl hc3
                | none => rw [hfh] at hup; exact absurd hup (by simp)
              | notExist => rw [hso] at hup; exact absurd hup (by simp)
              | err => rw [hso] at hup; exact absurd hup (by simp)
            exact ⟨(t, some r), List.mem_cons_self _ _,
              ⟨r, rfl, hrs⟩, hpath.symm⟩

/-- C8: the wait/accumulate loop of `scheduleCompilationTasks` visits
every task: it accumulates exactly one error message per failed or
missing result while continuing with the remaining tasks, mutates cache
entries only for the output files of tasks that succeeded, and the final
verdict is a build failure exactly when at least one task failed.  (The
concurrent executor is abstracted into the per-task results the waits
observe.) -/
theorem c8_partial_failure_tolerance (now : Int) (fs : FS)
    (deps : String → List String) (ch : String)
    (tasks : List (Task × Option TaskResult)) (c : Cache) :
    ((scheduleWait now fs deps ch tasks c).2.length =
      (tasks.filter (fun tr => match tr.2 with
        | some r => !r.success
        | none => true)).length) ∧
    ((∃ msg, scheduleVerdict (scheduleWait now fs deps ch tasks c).2 =
        .error msg) ↔
      ∃ tr ∈ tasks, tr.2 = none ∨ ∃ r, tr.2 = some r ∧
        r.success = false) ∧
    (∀ p, GetEntry (scheduleWait now fs deps ch tasks c).1 p ≠
        GetEntry c p →
      ∃ tr ∈ tasks, (∃ r, tr.2 = some r ∧ r.success = true) ∧
        tr.1.outputFile = p) := by
  refine ⟨scheduleWait_error_count now fs deps ch tasks c, ?_,
    scheduleWait_cache_frame now fs deps ch tasks c⟩
  have hlen := scheduleWait_error_count now fs deps ch tasks c
  constructor
  · rintro ⟨msg, hmsg⟩
    unfold scheduleVerdict at hmsg
    by_cases hpos :
        (scheduleWait now fs deps ch tasks c).2.length > 0
    · rw [hlen] at hpos
      obtain ⟨tr, htr⟩ := List.exists_mem_of_length_pos hpos
      have := List.mem_filter.mp htr
      refine ⟨tr, this.1, ?_⟩
      rcases hres : tr.2 with _ | r
      · exact Or.inl rfl
      · refine Or.inr ⟨r, rfl, ?_⟩
        have h2 := this.2
        rw [hres] at h2
        simpa using h2
    · rw [if_neg hpos] at hmsg
      exact absurd hmsg (by simp)
  · rintro ⟨tr, htr, hfail⟩
    have hmem : tr ∈ tasks.filter (fun tr => match tr.2 with
        | some r => !r.success
        | none => true) := by
      refine List.mem_filter.mpr ⟨htr, ?_⟩
      rcases hfail with hnone | ⟨r, hsome, hrs⟩
      · rw [hnone]
      · rw [hsome]
        simp [hrs]
    have hpos : 0 <
        (scheduleWait now fs deps ch tasks c).2.length := by
      rw [hlen]
      exact List.length_pos.mpr (fun he => by rw [he] at hmem; simp at hmem)
    refine ⟨"compilation failed with " ++
      toString (scheduleWait now fs deps ch tasks c).2.length ++
      " errors", ?_⟩
    unfold scheduleVerdict
    rw [if_pos hpos]

end Styx
